import Mathlib

/-!
# file_sorter: classification-and-move pipeline

A shallow embedding of `internal/filesorter/files.go` and
`internal/configuration/{types,config}.go`.

Modelling conventions.

* A Go `string` is a list of runes (`Str`).  Every standard-library function
  used by the program that inspects single characters only looks for the ASCII
  runes `/`, `.`, so nothing is lost with respect to the byte view.
* Path functions follow the Unix build of `path/filepath` (separator `/`,
  no volume names).
* A Go `map` is an association list; a `range` over it yields its values in an
  order chosen by the runtime, so the loop of `determineTargetFolder` takes the
  yielded sequence as an explicit argument.
* The file system is a finite association list from path strings to nodes;
  two different strings are two different entries. `os.Stat` resolves the path
  element by element and fails with `ENOENT` (the error `os.IsNotExist`
  recognises) for a missing entry, with `ENOTDIR` below a regular file, with
  `EACCES` below a directory that may not be searched, and with
  `ENAMETOOLONG` for a name of more than 255 bytes.
* The `for { ... }` loop of `handleDuplicateFilename` is unbounded; it is
  embedded with a fuel argument and returns `none` when the fuel runs out.
  Its counter is a Go `int`; it is a natural number here (the loop would have
  to run 2^63 times before the difference shows).
* `time.Sleep` inside `isFileComplete` lets other writers run: the functions
  that go through it take the state before and the state after the sleep.
* Error values are their fixed text; the wrapped cause (`%w`) is left out.
  The logger receives the formatted line without prefix and time stamp.
-/

namespace FileSorter

/-- A Go string, as its sequence of runes. -/
abbrev Str := List Char

/-! ## `strings` -/

/-- Go `strings.ToLower` (ASCII letters are folded; the proofs below use no
property of the rune map). -/
def stringsToLower (s : Str) : Str := s.map Char.toLower

/-- Go `strings.HasPrefix s p`. -/
def stringsHasPrefix (s p : Str) : Bool := p.isPrefixOf s

/-- Go `strings.HasSuffix s suf`. -/
def stringsHasSuffix (s suf : Str) : Bool := suf.isSuffixOf s

/-- Go `strings.Contains s sub`: `sub` starts at some position of `s`. -/
def stringsContains : Str → Str → Bool
  | [], sub => sub.isPrefixOf []
  | c :: s, sub => sub.isPrefixOf (c :: s) || stringsContains s sub

/-- Go `strings.TrimSuffix s suf`. -/
def stringsTrimSuffix (s suf : Str) : Str :=
  if stringsHasSuffix s suf then s.take (s.length - suf.length) else s

/-- Decimal digits of `n`, least significant first produced, most significant
first returned (`fuel` bounds the number of digits). -/
def itoaCore : Nat → Nat → Str → Str
  | 0, _, acc => acc
  | fuel + 1, n, acc =>
    let acc1 := Char.ofNat (48 + n % 10) :: acc
    if n / 10 = 0 then acc1 else itoaCore fuel (n / 10) acc1

/-- The text `fmt.Sprintf("%d", n)` prints for a non-negative counter. -/
def strconvItoa (n : Nat) : Str := itoaCore (n + 1) n []

/-! ## `path/filepath` (Unix) -/

/-- Scan of `filepath.Ext` from the end of the path: `rev` is what is left to
scan (reversed), `acc` what has been passed over. -/
def extScan : Str → Str → Str
  | [], _ => []
  | c :: rev, acc =>
    if c = '/' then [] else if c = '.' then '.' :: acc else extScan rev (c :: acc)

/-- Go `filepath.Ext`: the suffix starting at the last dot of the last path
element, empty when that element has no dot. -/
def filepathExt (path : Str) : Str := extScan path.reverse []

/-- Go `filepath.Base`. -/
def filepathBase (path : Str) : Str :=
  if path = [] then ['.']
  else
    let stripped := (path.reverse.dropWhile (fun c => c == '/')).reverse
    let last := (stripped.reverse.takeWhile (fun c => c != '/')).reverse
    if last = [] then ['/'] else last

/-- One path element arriving in `filepath.Clean`; `st` is the output built so
far, last element first. -/
def cleanElem (rooted : Bool) (st : List Str) (e : Str) : List Str :=
  if e = [] ∨ e = ['.'] then st
  else if e = ['.', '.'] then
    match st with
    | [] => if rooted then [] else [e]
    | top :: below => if top = ['.', '.'] then e :: st else below
  else e :: st

/-- One character of the scan of `filepath.Clean`: the state is the output so
far and the element being read. -/
def cleanChar (rooted : Bool) (s : List Str × Str) (c : Char) : List Str × Str :=
  if c = '/' then (cleanElem rooted s.1 s.2, []) else (s.1, s.2 ++ [c])

/-- The elements written by `filepath.Clean`, last one first, as text: one
separator between neighbours. -/
def joinElems : List Str → Str
  | [] => []
  | [e] => e
  | e :: below => joinElems below ++ '/' :: e

/-- The output buffer of `filepath.Clean` as a string. -/
def cleanRender (rooted : Bool) (st : List Str) : Str :=
  (if rooted then ['/'] else []) ++ joinElems st

/-- Go `filepath.Clean`. -/
def filepathClean (path : Str) : Str :=
  if path = [] then ['.']
  else
    let rooted := path.head? == some '/'
    let s := path.foldl (cleanChar rooted) ([], [])
    let out := cleanRender rooted (cleanElem rooted s.1 s.2)
    if out = [] then ['.'] else out

/-- Go `filepath.Dir`: everything up to the last separator, cleaned. -/
def filepathDir (path : Str) : Str :=
  filepathClean (path.reverse.dropWhile (fun c => c != '/')).reverse

/-- Go `filepath.Join` of two elements. -/
def filepathJoin (a b : Str) : Str :=
  if a ≠ [] then filepathClean (a ++ '/' :: b)
  else if b ≠ [] then filepathClean b
  else []

/-! ## Configuration (`internal/configuration/types.go`) -/

/-- The struct `SortRule`. -/
structure SortRule where
  Folder : Str
  Extensions : List Str
  MimeTypes : List Str
  Keywords : List Str
  deriving DecidableEq, Repr

/-- The struct `Config`; the two Go maps are association lists. -/
structure Config where
  WatchFolder : Str
  SortRules : List (Str × SortRule)
  EnableLogging : Bool
  LogFile : Str
  DryRun : Bool
  IgnorePatterns : List Str
  CustomMimeMap : List (Str × Str)

/-- The standard library the sorter calls and that is not part of the
repository: `mime.TypeByExtension` and the `matched` result of
`filepath.Match` (which is `false` when the pattern is malformed). -/
structure Stdlib where
  TypeByExtension : Str → Str
  Match : Str → Str → Bool

/-- The sequences a `range` over `Config.SortRules` may yield: every
arrangement of the map's values. -/
def rangeOrder (cfg : Config) (order : List SortRule) : Prop :=
  order.Perm (cfg.SortRules.map Prod.snd)

instance (cfg : Config) (order : List SortRule) : Decidable (rangeOrder cfg order) := by
  unfold rangeOrder; infer_instance

/-! ## Classification (`files.go`, `determineTargetFolder`, `getMimeType`) -/

/-- The method `getMimeType`: the custom map first, then the standard table. -/
def getMimeType (cfg : Config) (lib : Stdlib) (filePath : Str) : Str :=
  let ext := stringsToLower (filepathExt filePath)
  match cfg.CustomMimeMap.lookup ext with
  | some customMime => customMime
  | none => lib.TypeByExtension ext

/-- The loop over `rule.Extensions`. -/
def extensionLoop (fileExt : Str) : List Str → Bool
  | [] => false
  | ext :: rest => if fileExt = stringsToLower ext then true else extensionLoop fileExt rest

/-- The loop over `rule.MimeTypes`. -/
def mimeLoop (mimeType : Str) : List Str → Bool
  | [] => false
  | mt :: rest => if stringsHasPrefix mimeType mt then true else mimeLoop mimeType rest

/-- The loop over `rule.Keywords`. -/
def keywordLoop (fileName : Str) : List Str → Bool
  | [] => false
  | keyword :: rest =>
    if stringsContains (stringsToLower fileName) (stringsToLower keyword) then true
    else keywordLoop fileName rest

/-- The loop over the sort rules, in the order the `range` yields them. -/
def ruleLoop (fileName fileExt mimeType : Str) : List SortRule → Str
  | [] => []
  | rule :: rest =>
    if extensionLoop fileExt rule.Extensions then rule.Folder
    else if mimeLoop mimeType rule.MimeTypes then rule.Folder
    else if keywordLoop fileName rule.Keywords then rule.Folder
    else ruleLoop fileName fileExt mimeType rest

/-- The method `determineTargetFolder`; `order` is the sequence yielded by the `range`
over `cfg.SortRules`. -/
def determineTargetFolder (cfg : Config) (lib : Stdlib) (order : List SortRule)
    (filePath : Str) : Str :=
  let fileName := filepathBase filePath
  let fileExt := stringsToLower (filepathExt fileName)
  let mimeType := getMimeType cfg lib filePath
  ruleLoop fileName fileExt mimeType order

/-! ## Ignore policy (`shouldIgnoreFile`) -/

/-- The loop over `Config.IgnorePatterns`. -/
def patternLoop (lib : Stdlib) (fileName : Str) : List Str → Bool
  | [] => false
  | pattern :: rest => if lib.Match pattern fileName then true else patternLoop lib fileName rest

/-- The method `shouldIgnoreFile`. -/
def shouldIgnoreFile (cfg : Config) (lib : Stdlib) (filePath : Str) : Bool :=
  let fileName := filepathBase filePath
  if patternLoop lib fileName cfg.IgnorePatterns then true
  else if stringsHasPrefix fileName ['.'] || stringsHasSuffix fileName ".tmp".toList then true
  else false

/-! ## File system (`os`) -/

/-- A directory entry: a regular file with its bytes, a directory, or a
directory the process may not search (no `x` permission). -/
inductive Node where
  | file (content : List Nat)
  | dir
  | lockedDir
  deriving DecidableEq, Repr

/-- Go `FileInfo.Size()` (the size reported for a directory is system dependent
and plays no role below). -/
def Node.size : Node → Nat
  | .file content => content.length
  | .dir => 0
  | .lockedDir => 0

/-- A file-system state: finitely many entries, keyed by path string. -/
abbrev FS := List (Str × Node)

/-- The errors of path resolution (`syscall.Errno`). -/
inductive Errno where
  | ENOENT
  | ENOTDIR
  | EACCES
  | ENAMETOOLONG
  deriving DecidableEq, Repr

/-- What `os.Stat` returns: the file information, or the error. -/
inductive StatResult where
  | found (info : Node)
  | error (errno : Errno)
  deriving DecidableEq, Repr

/-- Go `os.IsNotExist` on the error part of a `StatResult`: true for `ENOENT`
only. -/
def osIsNotExist : StatResult → Bool
  | .error .ENOENT => true
  | _ => false

/-- The size sampled by an `os.Stat` that succeeded. -/
def statSize : StatResult → Option Nat
  | .found info => some info.size
  | .error _ => none

/-- The state of reading a path from the left: what has been read, the
element being read, and the directories passed so far, each with its name. -/
structure Scan where
  seen : Str
  elem : Str
  dirs : List (Str × Str)

/-- One character of a path: a separator ends the element being read, which
names a directory to pass through. -/
def scanChar (s : Scan) (c : Char) : Scan :=
  if c = '/' then
    ⟨s.seen ++ [c], [], if s.elem = [] then s.dirs else s.dirs ++ [(s.seen, s.elem)]⟩
  else ⟨s.seen ++ [c], s.elem ++ [c], s.dirs⟩

/-- The path read to its end. -/
def scanPath (path : Str) : Scan := path.foldl scanChar ⟨[], [], []⟩

/-- Length in bytes of a rune in UTF-8. -/
def runeLen (c : Char) : Nat :=
  if c.toNat < 128 then 1 else if c.toNat < 2048 then 2 else if c.toNat < 65536 then 3 else 4

/-- Length in bytes of a string. -/
def byteLen (s : Str) : Nat := (s.map runeLen).sum

/-- The longest file name the file system takes (`NAME_MAX`). -/
def nameMax : Nat := 255

/-- Passing through the directory `d.1`, whose name is `d.2`: `none` when
it can be searched, else the error. -/
def enterDir (fs : FS) (d : Str × Str) : Option Errno :=
  if nameMax < byteLen d.2 then some .ENAMETOOLONG
  else
    match fs.lookup d.1 with
    | none => some .ENOENT
    | some (.file _) => some .ENOTDIR
    | some .lockedDir => some .EACCES
    | some .dir => none

/-- Passing through the directories in turn. -/
def enterAll (fs : FS) : List (Str × Str) → Option Errno
  | [] => none
  | d :: rest =>
    match enterDir fs d with
    | some errno => some errno
    | none => enterAll fs rest

/-- Resolution of `path` up to its last element: `none` when every directory
on the way can be searched and the last name is not too long, else the
error. -/
def resolveParent (fs : FS) (path : Str) : Option Errno :=
  match enterAll fs (scanPath path).dirs with
  | some errno => some errno
  | none => if nameMax < byteLen (scanPath path).elem then some .ENAMETOOLONG else none

/-- Go `os.Stat`. -/
def osStat (fs : FS) (path : Str) : StatResult :=
  match resolveParent fs path with
  | some errno => .error errno
  | none =>
    match fs.lookup path with
    | none => .error .ENOENT
    | some info => .found info

/-- The directory part of `path` as `os.MkdirAll` cuts it: trailing
separators and the last element removed, and the separators before it. -/
def parentPath (path : Str) : Str :=
  let noSep := path.reverse.dropWhile (fun c => c == '/')
  let noElem := noSep.dropWhile (fun c => c != '/')
  (noElem.dropWhile (fun c => c == '/')).reverse

/-- The path `path` followed by its successive parents (`n` bounds their number). -/
def pathChain : Nat → Str → List Str
  | 0, _ => []
  | n + 1, path => if path = [] then [] else path :: pathChain n (parentPath path)

/-- Go `os.Mkdir`: the directory holding `path` must be reachable and the
name free. `none` is an error. -/
def osMkdir (fs : FS) (path : Str) : Option FS :=
  match resolveParent fs path with
  | some _ => none
  | none =>
    match fs.lookup path with
    | some _ => none
    | none => some ((path, .dir) :: fs)

/-- The recursion of `os.MkdirAll` along `path :: parents`: a directory found
ends it with success, a file found with an error; when `os.Stat` fails the
parents are made first, then the directory itself. `none` is an error. -/
def mkdirChain (fs : FS) : List Str → Option FS
  | [] => some fs
  | path :: parents =>
    match osStat fs path with
    | .found (.file _) => none
    | .found _ => some fs
    | .error _ =>
      match mkdirChain fs parents with
      | none => none
      | some fs1 =>
        match osMkdir fs1 path with
        | some fs2 => some fs2
        | none =>
          match osStat fs1 path with
          | .found (.file _) => none
          | .found _ => some fs1
          | .error _ => none

/-- Go `os.MkdirAll`. -/
def osMkdirAll (fs : FS) (path : Str) : Option FS :=
  mkdirChain fs (pathChain path.length path)

/-- The new key of an entry when the directory `oldpath` becomes `newpath`. -/
def rekey (oldpath newpath : Str) (e : Str × Node) : Str × Node :=
  if e.1 = oldpath then (newpath, e.2)
  else if (oldpath ++ ['/']).isPrefixOf e.1 then (newpath ++ e.1.drop oldpath.length, e.2)
  else e

/-- Go `os.Rename` (POSIX `rename`): a file replaces a file or takes a free name,
a directory moves with everything below it onto a free name; the directory
holding the new name must be reachable. `none` is an error. -/
def osRename (fs : FS) (oldpath newpath : Str) : Option FS :=
  match osStat fs oldpath with
  | .error _ => none
  | .found (.file content) =>
    match resolveParent fs newpath with
    | some _ => none
    | none =>
      match fs.lookup newpath with
      | some .dir => none
      | some .lockedDir => none
      | _ => some ((newpath, .file content) ::
          fs.filter (fun e => e.1 != oldpath && e.1 != newpath))
  | .found _ =>
    if oldpath = newpath then some fs
    else
      match resolveParent fs newpath with
      | some _ => none
      | none =>
        if (fs.lookup newpath).isSome then none
        else if (oldpath ++ ['/']).isPrefixOf newpath then none
        else some (fs.map (rekey oldpath newpath))

/-! ## Stability (`isFileComplete`) -/

/-- The method `isFileComplete`. `fs` is the state at the first `os.Stat`, `fsLater` the
state at the second one, after `time.Sleep` (other writers run meanwhile).
Returns the verdict and the state at return. -/
def isFileComplete (fs fsLater : FS) (filePath : Str) : Bool × FS :=
  match osStat fs filePath with
  | .error _ => (false, fs)
  | .found info1 =>
    match osStat fsLater filePath with
    | .error _ => (false, fsLater)
    | .found info2 => (info1.size == info2.size, fsLater)

/-! ## Duplicate names (`handleDuplicateFilename`) -/

/-- The path probed by the loop of `handleDuplicateFilename` when its counter
is `counter` (the loop body up to the `os.Stat`). -/
def candidate (targetPath : Str) (counter : Nat) : Str :=
  let dir := filepathDir targetPath
  let name := filepathBase targetPath
  let ext := filepathExt name
  let nameWithoutExt := stringsTrimSuffix name ext
  let newName := nameWithoutExt ++ '_' :: strconvItoa counter ++ ext
  filepathJoin dir newName

/-- The `for { ... }` loop of `handleDuplicateFilename`, run for at most
`fuel` iterations from `counter`: it returns only when `os.IsNotExist` holds
of the error of `os.Stat`. -/
def probeLoop (fs : FS) (targetPath : Str) : Nat → Nat → Option Str
  | 0, _ => none
  | fuel + 1, counter =>
    let newPath := candidate targetPath counter
    if osIsNotExist (osStat fs newPath) then some newPath
    else probeLoop fs targetPath fuel (counter + 1)

/-- The method `handleDuplicateFilename`; `none` when the loop has not ended within
`fuel` iterations. -/
def handleDuplicateFilename (fs : FS) (fuel : Nat) (targetPath : Str) : Option Str :=
  if osIsNotExist (osStat fs targetPath) then some targetPath
  else probeLoop fs targetPath fuel 1

/-- What a call leaves behind: the returned error (`none` is `nil`), the
file-system state and the lines handed to the logger. -/
structure Outcome where
  err : Option Str
  fs : FS
  log : List Str
  deriving DecidableEq, Repr

/-- The method `moveFile`; `none` when the probing loop has not ended within `fuel`. -/
def moveFile (cfg : Config) (fuel : Nat) (fs : FS) (filePath targetFolder : Str) :
    Option Outcome :=
  let fileName := filepathBase filePath
  let targetPath := filepathJoin targetFolder fileName
  match handleDuplicateFilename fs fuel targetPath with
  | none => none
  | some targetPath =>
    if cfg.DryRun then
      some ⟨none, fs, ["DRY RUN: Would move ".toList ++ filePath ++ " -> ".toList ++ targetPath]⟩
    else
      match osMkdirAll fs (filepathDir targetPath) with
      | none => some ⟨some "failed to create target directory".toList, fs, []⟩
      | some fs1 =>
        match osRename fs1 filePath targetPath with
        | none => some ⟨some "failed to move file".toList, fs1, []⟩
        | some fs2 =>
          some ⟨none, fs2, ["Moved: ".toList ++ filePath ++ " -> ".toList ++ targetPath]⟩

/-- The stages of `processFile` after the ignore check. -/
inductive Stage where
  | stability
  | classification
  | move
  deriving DecidableEq, Repr

/-- What `processFile` leaves behind, with the stages it went through. -/
structure Processed where
  err : Option Str
  fs : FS
  log : List Str
  stages : List Stage
  deriving DecidableEq, Repr

/-- The method `processFile`. `fs` is the state at the call, `fsLater` the state after
the sleep of the stability check; `order` is what the `range` over the sort
rules yields. `none` when the probing loop has not ended within `fuel`. -/
def processFile (cfg : Config) (lib : Stdlib) (order : List SortRule) (fuel : Nat)
    (fs fsLater : FS) (filePath : Str) : Option Processed :=
  if shouldIgnoreFile cfg lib filePath then
    some ⟨some (filePath ++ " should be ignored based on the config".toList), fs, [], []⟩
  else
    let complete := isFileComplete fs fsLater filePath
    if !complete.1 then
      some ⟨some (filePath ++ " is still being written".toList), complete.2,
        ["File still being written, skipping: ".toList ++ filePath], [.stability]⟩
    else
      let targetFolder := determineTargetFolder cfg lib order filePath
      if targetFolder = [] then
        some ⟨some ("no matching rule for file: ".toList ++ filePath), complete.2,
          ["No matching rule for file: ".toList ++ filePath], [.stability, .classification]⟩
      else
        match moveFile cfg fuel complete.2 filePath targetFolder with
        | none => none
        | some moved =>
          let errLine := match moved.err with
            | some e => ["Error moving file ".toList ++ filePath ++ ": ".toList ++ e]
            | none => []
          some ⟨none, moved.fs, moved.log ++ errLine,
            [.stability, .classification, .move]⟩

/-! ## The default configuration (`LoadConfig`) -/

/-- The default sort rules of `LoadConfig`, in the order of the map literal. -/
def defaultSortRules : List (Str × SortRule) :=
  let l (xs : List String) : List Str := xs.map String.toList
  [ ("images".toList, ⟨"./Downloads/Images".toList,
      l [".jpg", ".jpeg", ".png", ".gif", ".bmp", ".svg", ".webp", ".ico"], l ["image/"], []⟩),
    ("documents".toList, ⟨"./Downloads/Documents".toList,
      l [".pdf", ".doc", ".docx", ".txt", ".rtf", ".odt", ".xls", ".xlsx", ".ppt", ".pptx"],
      l ["application/pdf", "application/msword", "text/"], []⟩),
    ("videos".toList, ⟨"./Downloads/Videos".toList,
      l [".mp4", ".avi", ".mkv", ".mov", ".wmv", ".flv", ".webm", ".m4v"], l ["video/"], []⟩),
    ("audio".toList, ⟨"./Downloads/Audio".toList,
      l [".mp3", ".wav", ".flac", ".aac", ".ogg", ".wma", ".m4a"], l ["audio/"], []⟩),
    ("archives".toList, ⟨"./Downloads/Archives".toList,
      l [".zip", ".rar", ".7z", ".tar", ".gz", ".bz2", ".xz"],
      l ["application/zip", "application/x-rar"], []⟩),
    ("executables".toList, ⟨"./Downloads/Programs".toList,
      l [".exe", ".msi", ".deb", ".rpm", ".dmg", ".pkg", ".appx"],
      l ["application/x-executable", "application/x-msdos-program"], []⟩),
    ("code".toList, ⟨"./Downloads/Code".toList,
      l [".go", ".py", ".js", ".html", ".css", ".java", ".cpp", ".c", ".h", ".php", ".rb", ".rs"],
      l ["text/x-go", "text/x-python", "text/javascript"], []⟩) ]

/-- The default configuration of `LoadConfig`. -/
def defaultConfig : Config where
  WatchFolder := "./Downloads".toList
  SortRules := defaultSortRules
  EnableLogging := true
  LogFile := "./auto-sort.log".toList
  DryRun := false
  IgnorePatterns := [ "*.tmp".toList, "*.part".toList, ".*".toList ]
  CustomMimeMap :=
    [ (".dmg".toList, "application/x-apple-diskimage".toList),
      (".deb".toList, "application/x-debian-package".toList),
      (".rpm".toList, "application/x-rpm".toList),
      (".appx".toList, "application/appx".toList) ]


/-! ## The reference classifier -/

/-- Check (a) of the specification: the extension is one of the rule's,
compared lower-cased. -/
def extensionListed (fileExt : Str) (rule : SortRule) : Prop :=
  ∃ ext ∈ rule.Extensions, fileExt = stringsToLower ext

/-- Check (b): one of the rule's content-type prefixes starts the resolved
content type. -/
def contentTypeListed (contentType : Str) (rule : SortRule) : Prop :=
  ∃ p ∈ rule.MimeTypes, p <+: contentType

/-- Check (c): the lower-cased file name contains one of the rule's keywords,
lower-cased. -/
def keywordListed (fileName : Str) (rule : SortRule) : Prop :=
  ∃ kw ∈ rule.Keywords, stringsToLower kw <:+: stringsToLower fileName

/-- A rule matches when one of the three checks succeeds. -/
def ruleSatisfied (fileName fileExt contentType : Str) (rule : SortRule) : Prop :=
  extensionListed fileExt rule ∨ contentTypeListed contentType rule ∨
    keywordListed fileName rule

instance (fileExt : Str) (rule : SortRule) : Decidable (extensionListed fileExt rule) := by
  unfold extensionListed; infer_instance

instance (contentType : Str) (rule : SortRule) :
    Decidable (contentTypeListed contentType rule) := by
  unfold contentTypeListed; infer_instance

instance (fileName : Str) (rule : SortRule) : Decidable (keywordListed fileName rule) := by
  unfold keywordListed; infer_instance

instance (fileName fileExt contentType : Str) (rule : SortRule) :
    Decidable (ruleSatisfied fileName fileExt contentType rule) := by
  unfold ruleSatisfied; infer_instance

/-- Content-type resolution of the specification: the override entry of the
lower-cased extension when there is one, the standard table's otherwise. -/
def resolveContentType (cfg : Config) (lib : Stdlib) (filePath : Str) : Str :=
  let ext := stringsToLower (filepathExt filePath)
  (cfg.CustomMimeMap.lookup ext).getD (lib.TypeByExtension ext)

/-- The reference classifier of the specification: the folder of the first
rule, in iteration order, that matches; the empty string when none does. -/
def classify (cfg : Config) (lib : Stdlib) (order : List SortRule) (filePath : Str) : Str :=
  let fileName := filepathBase filePath
  let fileExt := stringsToLower (filepathExt fileName)
  let contentType := resolveContentType cfg lib filePath
  match order.find? (fun rule => decide (ruleSatisfied fileName fileExt contentType rule)) with
  | some rule => rule.Folder
  | none => []

/-! ## Example data -/

/-- A standard library for the examples: the entries of Go's built-in
extension table that the examples look up (every other extension has no
type), and a `Match` that knows patterns without metacharacters only, which
match exactly their own text. -/
def exampleLib : Stdlib where
  TypeByExtension := fun ext =>
    if ext = ".html".toList then "text/html; charset=utf-8".toList
    else if ext = ".jpg".toList then "image/jpeg".toList
    else if ext = ".pdf".toList then "application/pdf".toList
    else []
  Match := fun pattern name => decide (pattern = name)

/-- The default rules as a `range` may yield them: `documents` first. -/
def documentsFirst : List SortRule :=
  match defaultSortRules.map Prod.snd with
  | images :: documents :: rest => documents :: images :: rest
  | other => other

/-- Two rules that both list the extension `.log`. -/
def ruleA : SortRule := ⟨"A".toList, [".log".toList], [], []⟩

/-- See `ruleA`. -/
def ruleB : SortRule := ⟨"B".toList, [".LOG".toList], [], []⟩

/-- A configuration whose rule map was filled with `ruleA`, then `ruleB`. -/
def twoRuleConfig : Config where
  WatchFolder := "in".toList
  SortRules := [("a".toList, ruleA), ("b".toList, ruleB)]
  EnableLogging := false
  LogFile := []
  DryRun := false
  IgnorePatterns := []
  CustomMimeMap := []

/-- A state in which the documents folder already holds `report.pdf`, and a
new `report.pdf` and a `notes.xyz` wait in the watched folder. -/
def exampleFS : FS :=
  [ ("Docs".toList, .dir), ("Docs/report.pdf".toList, .file [1]),
    ("in".toList, .dir), ("in/report.pdf".toList, .file [2, 3]),
    ("in/notes.xyz".toList, .file [7]) ]

/-- A rule set with one rule, sending documents to `Docs`. -/
def docsConfig (dryRun : Bool) : Config where
  WatchFolder := "in".toList
  SortRules := [("documents".toList,
    ⟨"Docs".toList, [".pdf".toList, ".txt".toList], ["application/pdf".toList], []⟩)]
  EnableLogging := false
  LogFile := []
  DryRun := dryRun
  IgnorePatterns := []
  CustomMimeMap := []

/-- A state in which the documents folder `Docs` has been replaced by a
regular file of that name. -/
def notDirFS : FS :=
  [ ("Docs".toList, .file [9]), ("in".toList, .dir), ("in/report.pdf".toList, .file [2, 3]) ]

/-- A state in which the documents folder `Docs` exists and may not be
searched by the process. -/
def lockedFS : FS :=
  [ ("Docs".toList, .lockedDir), ("in".toList, .dir), ("in/report.pdf".toList, .file [2, 3]) ]

theorem extensionLoop_iff (fileExt : Str) (exts : List Str) :
    extensionLoop fileExt exts = true ↔ ∃ ext ∈ exts, fileExt = stringsToLower ext := by
  induction exts with
  | nil => simp [extensionLoop]
  | cons x rest ih =>
    simp only [extensionLoop, List.mem_cons, exists_eq_or_imp]
    by_cases h : fileExt = stringsToLower x
    · simp [h]
    · simp [h, ih]

theorem mimeLoop_iff (mimeType : Str) (mts : List Str) :
    mimeLoop mimeType mts = true ↔ ∃ p ∈ mts, p <+: mimeType := by
  induction mts with
  | nil => simp [mimeLoop]
  | cons x rest ih =>
    simp only [mimeLoop, List.mem_cons, exists_eq_or_imp, stringsHasPrefix]
    by_cases h : x.isPrefixOf mimeType = true
    · simp [h, List.isPrefixOf_iff_prefix.mp h]
    · have h2 : ¬ x <+: mimeType := fun hp => h (List.isPrefixOf_iff_prefix.mpr hp)
      simp [h, h2, ih]

theorem stringsContains_iff (s sub : Str) : stringsContains s sub = true ↔ sub <:+: s := by
  induction s with
  | nil =>
    simp only [stringsContains, List.isPrefixOf_iff_prefix]
    constructor
    · intro h; exact h.isInfix
    · intro h; rw [List.infix_nil] at h; subst h; exact List.nil_prefix
  | cons c s ih =>
    simp only [stringsContains, Bool.or_eq_true, List.isPrefixOf_iff_prefix, ih,
      List.infix_cons_iff]

theorem keywordLoop_iff (fileName : Str) (kws : List Str) :
    keywordLoop fileName kws = true ↔
      ∃ kw ∈ kws, stringsToLower kw <:+: stringsToLower fileName := by
  induction kws with
  | nil => simp [keywordLoop]
  | cons x rest ih =>
    simp only [keywordLoop, List.mem_cons, exists_eq_or_imp]
    by_cases h : stringsContains (stringsToLower fileName) (stringsToLower x) = true
    · simp [h, (stringsContains_iff _ _).mp h]
    · have h2 : ¬ stringsToLower x <:+: stringsToLower fileName :=
        fun hp => h ((stringsContains_iff _ _).mpr hp)
      simp [h, h2, ih]

/-- The body of the rule loop returns the rule's folder exactly when the rule
matches. -/
theorem ruleLoop_cons (fileName fileExt mimeType : Str) (rule : SortRule)
    (rest : List SortRule) :
    ruleLoop fileName fileExt mimeType (rule :: rest) =
      if ruleSatisfied fileName fileExt mimeType rule then rule.Folder
      else ruleLoop fileName fileExt mimeType rest := by
  have ha := extensionLoop_iff fileExt rule.Extensions
  have hb := mimeLoop_iff mimeType rule.MimeTypes
  have hc := keywordLoop_iff fileName rule.Keywords
  have hs : ruleSatisfied fileName fileExt mimeType rule ↔
      (extensionLoop fileExt rule.Extensions = true ∨ mimeLoop mimeType rule.MimeTypes = true ∨
        keywordLoop fileName rule.Keywords = true) := by
    unfold ruleSatisfied extensionListed contentTypeListed keywordListed
    rw [ha, hb, hc]
  simp only [ruleLoop, hs]
  cases extensionLoop fileExt rule.Extensions <;>
    cases mimeLoop mimeType rule.MimeTypes <;>
      cases keywordLoop fileName rule.Keywords <;> simp

theorem ruleLoop_eq_find (fileName fileExt mimeType : Str) (order : List SortRule) :
    ruleLoop fileName fileExt mimeType order =
      match order.find? (fun rule => decide (ruleSatisfied fileName fileExt mimeType rule)) with
      | some rule => rule.Folder
      | none => [] := by
  induction order with
  | nil => simp [ruleLoop]
  | cons rule rest ih =>
    rw [ruleLoop_cons]
    by_cases h : ruleSatisfied fileName fileExt mimeType rule
    · simp [h, List.find?]
    · simp [h, List.find?, ih]

theorem ruleLoop_skip (fileName fileExt mimeType : Str) (pre rest : List SortRule)
    (h : ∀ r ∈ pre, ¬ ruleSatisfied fileName fileExt mimeType r) :
    ruleLoop fileName fileExt mimeType (pre ++ rest) =
      ruleLoop fileName fileExt mimeType rest := by
  induction pre with
  | nil => rfl
  | cons r pre ih =>
    rw [List.cons_append, ruleLoop_cons, if_neg (h r (List.mem_cons_self _ _))]
    exact ih (fun r hr => h r (List.mem_cons_of_mem _ hr))

theorem ruleLoop_eq_nil_iff (fileName fileExt mimeType : Str) (order : List SortRule)
    (hfolder : ∀ r ∈ order, r.Folder ≠ []) :
    ruleLoop fileName fileExt mimeType order = [] ↔
      ∀ r ∈ order, ¬ ruleSatisfied fileName fileExt mimeType r := by
  induction order with
  | nil => simp [ruleLoop]
  | cons rule rest ih =>
    rw [ruleLoop_cons]
    have ih1 := ih (fun r hr => hfolder r (List.mem_cons_of_mem _ hr))
    have hf := hfolder rule (List.mem_cons_self _ _)
    by_cases h : ruleSatisfied fileName fileExt mimeType rule
    · simp [h, hf]
    · simp [h, ih1]

theorem getMimeType_eq (cfg : Config) (lib : Stdlib) (filePath : Str) :
    getMimeType cfg lib filePath = resolveContentType cfg lib filePath := by
  simp only [getMimeType, resolveContentType]
  cases List.lookup (stringsToLower (filepathExt filePath)) cfg.CustomMimeMap <;> rfl

/-! ## Extension of a path and of its base name -/

theorem extScan_takeWhile : ∀ (rev acc : Str),
    extScan (rev.takeWhile (fun c => c != '/')) acc = extScan rev acc := by
  intro rev
  induction rev with
  | nil => intro acc; rfl
  | cons c rev ih =>
    intro acc
    by_cases h : c = '/'
    · subst h
      simp [List.takeWhile, extScan]
    · have hb : (c != '/') = true := by simpa using h
      rw [List.takeWhile_cons, hb]
      simp only [if_true, extScan, h, if_false]
      by_cases h2 : c = '.'
      · simp [h2]
      · simp only [h2, if_false]
        exact ih _

/-- On a path that is not empty and does not end in a separator, the
extension of the path and the extension of its base name are the same. -/
theorem filepathExt_base (path : Str) (hne : path ≠ [])
    (hlast : path.getLast? ≠ some '/') :
    filepathExt (filepathBase path) = filepathExt path := by
  obtain ⟨c, rev, hrev⟩ : ∃ c rev, path.reverse = c :: rev := by
    cases h : path.reverse with
    | nil => exact absurd (List.reverse_eq_nil_iff.mp h) hne
    | cons c rev => exact ⟨c, rev, rfl⟩
  have hc : c ≠ '/' := by
    intro e
    apply hlast
    rw [List.getLast?_eq_head?_reverse, hrev, e]
    rfl
  have hb : (c == '/') = false := by simpa using hc
  have hb2 : (c != '/') = true := by simpa using hc
  unfold filepathBase filepathExt
  simp only [hne, if_false, hrev, List.dropWhile_cons, hb, Bool.false_eq_true,
    List.reverse_reverse]
  rw [List.takeWhile_cons, hb2]
  simp only [if_true, List.reverse_eq_nil_iff, reduceCtorEq, if_false, List.reverse_reverse]
  have htw : (c :: rev).takeWhile (fun c => c != '/') =
      c :: rev.takeWhile (fun c => c != '/') := by
    rw [List.takeWhile_cons, hb2]; rfl
  rw [← htw, extScan_takeWhile]

/-! ## Classification -/

/-- C1, as stated, fails: with the default configuration, the rules yielded
with `documents` first and `.html` typed `text/html`, the extension of
`index.html` is listed by the `code` rule alone, yet the file is classified to
the documents folder, whose rule matches by the content-type prefix `text/`. -/
theorem C1_counterexample :
    rangeOrder defaultConfig documentsFirst ∧
    ∃ rule ∈ documentsFirst,
      extensionListed (stringsToLower (filepathExt (filepathBase "index.html".toList))) rule ∧
      (∀ r ∈ documentsFirst,
        extensionListed (stringsToLower (filepathExt (filepathBase "index.html".toList))) r →
          r = rule) ∧
      rule.Folder = "./Downloads/Code".toList ∧
      determineTargetFolder defaultConfig exampleLib documentsFirst "index.html".toList =
        "./Downloads/Documents".toList := by
  decide

/-- C1 (amended): when the lower-cased extension of the file is listed by
exactly one rule of the iterated sequence, and no rule iterated before that
rule matches the file by content-type prefix or by keyword,
`determineTargetFolder` returns that rule's folder. -/
theorem C1_single_extension_rule (cfg : Config) (lib : Stdlib) (pre post : List SortRule)
    (rule : SortRule) (filePath : Str)
    (hlisted : extensionListed (stringsToLower (filepathExt (filepathBase filePath))) rule)
    (hothers : ∀ r ∈ pre ++ post,
      ¬ extensionListed (stringsToLower (filepathExt (filepathBase filePath))) r)
    (hbefore : ∀ r ∈ pre,
      ¬ contentTypeListed (resolveContentType cfg lib filePath) r ∧
      ¬ keywordListed (filepathBase filePath) r) :
    determineTargetFolder cfg lib (pre ++ rule :: post) filePath = rule.Folder := by
  unfold determineTargetFolder
  simp only [getMimeType_eq]
  rw [ruleLoop_skip, ruleLoop_cons]
  · exact if_pos (Or.inl hlisted)
  intro r hr hsat
  rcases hsat with h | h | h
  · exact hothers r (List.mem_append_left _ hr) h
  · exact (hbefore r hr).1 h
  · exact (hbefore r hr).2 h

/-- The amended C1 at `main.py`, the default rules yielded in the order of
the map literal (`code` last): the six rules before `code` match neither by
content type nor by keyword, and the file goes to the code folder. -/
theorem C1_single_extension_rule_witness :
    determineTargetFolder defaultConfig exampleLib (defaultSortRules.map Prod.snd)
      "main.py".toList = "./Downloads/Code".toList :=
  C1_single_extension_rule defaultConfig exampleLib ((defaultSortRules.map Prod.snd).take 6) []
    ⟨"./Downloads/Code".toList,
      [".go", ".py", ".js", ".html", ".css", ".java", ".cpp", ".c", ".h", ".php", ".rb",
        ".rs"].map String.toList,
      ["text/x-go", "text/x-python", "text/javascript"].map String.toList, []⟩
    "main.py".toList (by decide) (by decide) (by decide)

/-- C2, as stated, fails: the rule map filled with `ruleA` then `ruleB` may be
iterated in either order, both rules list the extension of `app.log`, and the
call that iterates `ruleB` first returns the folder of `ruleB`, the later rule
in insertion order; two calls with the same rule set, override map and file
name return different folders. -/
theorem C2_counterexample :
    twoRuleConfig.SortRules.map Prod.snd = [ruleA, ruleB] ∧
    rangeOrder twoRuleConfig [ruleA, ruleB] ∧ rangeOrder twoRuleConfig [ruleB, ruleA] ∧
    extensionListed (stringsToLower (filepathExt (filepathBase "app.log".toList))) ruleA ∧
    extensionListed (stringsToLower (filepathExt (filepathBase "app.log".toList))) ruleB ∧
    determineTargetFolder twoRuleConfig exampleLib [ruleA, ruleB] "app.log".toList =
      ruleA.Folder ∧
    determineTargetFolder twoRuleConfig exampleLib [ruleB, ruleA] "app.log".toList =
      ruleB.Folder ∧
    ruleA.Folder ≠ ruleB.Folder := by
  decide

/-- C2 (amended): when two rules of the iterated sequence both list the
file's extension, `determineTargetFolder` returns the folder of the one that
the iteration of this call yields first, provided no rule yielded before it
matches the file; the result is a function of the iterated sequence, the
override map and the file name. -/
theorem C2_first_iterated_wins (cfg : Config) (lib : Stdlib) (pre mid post : List SortRule)
    (first second : SortRule) (filePath : Str)
    (hfirst : extensionListed (stringsToLower (filepathExt (filepathBase filePath))) first)
    (_hsecond : extensionListed (stringsToLower (filepathExt (filepathBase filePath))) second)
    (hbefore : ∀ r ∈ pre,
      ¬ ruleSatisfied (filepathBase filePath)
        (stringsToLower (filepathExt (filepathBase filePath)))
        (resolveContentType cfg lib filePath) r) :
    determineTargetFolder cfg lib (pre ++ first :: (mid ++ second :: post)) filePath =
      first.Folder := by
  unfold determineTargetFolder
  simp only [getMimeType_eq]
  rw [ruleLoop_skip _ _ _ _ _ hbefore, ruleLoop_cons]
  exact if_pos (Or.inl hfirst)

/-- The amended C2 at `app.log` with `ruleB` yielded before `ruleA`. -/
theorem C2_first_iterated_wins_witness :
    determineTargetFolder twoRuleConfig exampleLib [ruleB, ruleA] "app.log".toList =
      "B".toList :=
  C2_first_iterated_wins twoRuleConfig exampleLib [] [] [] ruleB ruleA "app.log".toList
    (by decide) (by decide) (by decide)

/-- C3: `determineTargetFolder` equals the reference classifier `classify`
(content type from the override map, else the standard table; folder of the
first rule in iteration order passing the extension, content-type-prefix or
keyword check); when every folder is non-empty it returns the empty string
exactly when no rule passes a check; a rule with three empty lists passes
none. The content type is resolved from the extension of the path and
check (a) reads the extension of the base name: on a path that is not empty
and does not end in a separator these are one and the same extension. -/
theorem C3_refines_classify (cfg : Config) (lib : Stdlib) (order : List SortRule)
    (filePath : Str) :
    determineTargetFolder cfg lib order filePath = classify cfg lib order filePath ∧
    ((∀ r ∈ order, r.Folder ≠ []) →
      (determineTargetFolder cfg lib order filePath = [] ↔
        ∀ r ∈ order, ¬ ruleSatisfied (filepathBase filePath)
          (stringsToLower (filepathExt (filepathBase filePath)))
          (resolveContentType cfg lib filePath) r)) ∧
    (∀ (r : SortRule) (fileName fileExt contentType : Str),
      r.Extensions = [] → r.MimeTypes = [] → r.Keywords = [] →
        ¬ ruleSatisfied fileName fileExt contentType r) ∧
    (filePath ≠ [] → filePath.getLast? ≠ some '/' →
      resolveContentType cfg lib filePath =
        (cfg.CustomMimeMap.lookup (stringsToLower (filepathExt (filepathBase filePath)))).getD
          (lib.TypeByExtension (stringsToLower (filepathExt (filepathBase filePath))))) := by
  refine ⟨?_, ?_, ?_, ?_⟩
  · unfold determineTargetFolder classify
    simp only [getMimeType_eq]
    exact ruleLoop_eq_find _ _ _ _
  · intro hfolder
    unfold determineTargetFolder
    simp only [getMimeType_eq]
    exact ruleLoop_eq_nil_iff _ _ _ _ hfolder
  · intro r fileName fileExt contentType he hm hk hsat
    unfold ruleSatisfied extensionListed contentTypeListed keywordListed at hsat
    rw [he, hm, hk] at hsat
    simp at hsat
  · intro hne hlast
    unfold resolveContentType
    rw [filepathExt_base filePath hne hlast]

/-- C3 at `notes.xyz` under the default rules: every folder is non-empty, no
rule passes a check, and no folder is returned; a rule with empty lists does
not match `photo.jpg`; the content type of `in/setup.DMG` comes from the
override entry of `.dmg`. -/
theorem C3_refines_classify_witness :
    determineTargetFolder defaultConfig exampleLib (defaultSortRules.map Prod.snd)
      "notes.xyz".toList = [] ∧
    ¬ ruleSatisfied "photo.jpg".toList ".jpg".toList "image/jpeg".toList
      ⟨"./Anything".toList, [], [], []⟩ ∧
    resolveContentType defaultConfig exampleLib "in/setup.DMG".toList =
      "application/x-apple-diskimage".toList :=
  ⟨((C3_refines_classify defaultConfig exampleLib (defaultSortRules.map Prod.snd)
      "notes.xyz".toList).2.1 (by decide)).mpr (by decide),
   (C3_refines_classify defaultConfig exampleLib [] []).2.2.1 _ _ _ _ rfl rfl rfl,
   ((C3_refines_classify defaultConfig exampleLib [] "in/setup.DMG".toList).2.2.2
      (by decide) (by decide)).trans (by decide)⟩

/-! ## Decimal counters -/

/-- Value of a decimal numeral. -/
theorem digit_value : ∀ d, d < 10 → (Char.ofNat (48 + d)).toNat - 48 = d := by
  decide

theorem digit_ne_sep : ∀ d, d < 10 → Char.ofNat (48 + d) ≠ '/' := by
  decide

theorem itoaCore_acc (fuel : Nat) : ∀ (n : Nat) (acc : Str),
    itoaCore fuel n acc = itoaCore fuel n [] ++ acc := by
  induction fuel with
  | zero => intro n acc; simp [itoaCore]
  | succ fuel ih =>
    intro n acc
    simp only [itoaCore]
    by_cases h : n / 10 = 0
    · simp [h]
    · simp only [h, if_false]
      rw [ih (n / 10) (Char.ofNat (48 + n % 10) :: acc), ih (n / 10) [Char.ofNat (48 + n % 10)]]
      simp

theorem itoaCore_value (fuel : Nat) : ∀ n, n < fuel →
    (itoaCore fuel n []).foldl (fun a c => 10 * a + (c.toNat - 48)) 0 = n := by
  induction fuel with
  | zero => intro n h; omega
  | succ fuel ih =>
    intro n hn
    simp only [itoaCore]
    by_cases h : n / 10 = 0
    · simp only [h, if_true, List.foldl]
      rw [digit_value _ (Nat.mod_lt _ (by decide))]
      omega
    · simp only [h, if_false]
      rw [itoaCore_acc, List.foldl_append, ih (n / 10) (by omega)]
      simp only [List.foldl]
      rw [digit_value _ (Nat.mod_lt _ (by decide))]
      omega

theorem strconvItoa_injective (a b : Nat) (h : strconvItoa a = strconvItoa b) : a = b := by
  have ha := itoaCore_value (a + 1) a (Nat.lt_succ_self a)
  have hb := itoaCore_value (b + 1) b (Nat.lt_succ_self b)
  unfold strconvItoa at h
  rw [h] at ha
  omega

theorem itoaCore_no_sep (fuel : Nat) : ∀ (n : Nat) (acc : Str),
    '/' ∉ acc → '/' ∉ itoaCore fuel n acc := by
  induction fuel with
  | zero => intro n acc h; simpa [itoaCore] using h
  | succ fuel ih =>
    intro n acc hacc
    have hd : '/' ∉ Char.ofNat (48 + n % 10) :: acc := by
      intro hmem
      rcases List.mem_cons.mp hmem with h | h
      · exact digit_ne_sep _ (Nat.mod_lt _ (by decide)) h.symm
      · exact hacc h
    simp only [itoaCore]
    by_cases h : n / 10 = 0
    · simpa [h] using hd
    · simp only [h, if_false]
      exact ih _ _ hd

theorem strconvItoa_no_sep (n : Nat) : '/' ∉ strconvItoa n :=
  itoaCore_no_sep _ _ _ (List.not_mem_nil _)

/-! ## `filepath.Clean` keeps an ordinary last element -/

theorem cleanFold_elem (rooted : Bool) (c : Str) : ∀ (st : List Str) (acc : Str), '/' ∉ c →
    c.foldl (cleanChar rooted) (st, acc) = (st, acc ++ c) := by
  induction c with
  | nil => intro st acc _; simp
  | cons x c ih =>
    intro st acc h
    have hx : x ≠ '/' := fun e => h (e ▸ List.mem_cons_self _ _)
    have hc : '/' ∉ c := fun e => h (List.mem_cons_of_mem _ e)
    simp only [List.foldl, cleanChar, hx, if_false]
    rw [ih _ _ hc]
    simp

theorem cleanElem_real (rooted : Bool) (st : List Str) (e : Str)
    (h0 : e ≠ []) (h1 : e ≠ ['.']) (h2 : e ≠ ['.', '.']) : cleanElem rooted st e = e :: st := by
  simp [cleanElem, h0, h1, h2]

theorem joinElems_cons (e : Str) (st : List Str) :
    joinElems (e :: st) = (if st = [] then [] else joinElems st ++ ['/']) ++ e := by
  cases st with
  | nil => simp [joinElems]
  | cons x st => simp [joinElems]

/-- Cleaning a path whose last element is an ordinary name: the name is kept
after a text that depends on the rest of the path only. -/
theorem filepathClean_last (pre : Str) : ∃ lead : Str, ∀ e : Str,
    '/' ∉ e → e ≠ [] → e ≠ ['.'] → e ≠ ['.', '.'] →
      filepathClean (pre ++ '/' :: e) = lead ++ e := by
  let rooted : Bool := (pre ++ ['/']).head? == some '/'
  let s := pre.foldl (cleanChar rooted) ([], [])
  let st := cleanElem rooted s.1 s.2
  refine ⟨(if rooted then ['/'] else []) ++ (if st = [] then [] else joinElems st ++ ['/']), ?_⟩
  intro e hsep h0 h1 h2
  have hr : ((pre ++ '/' :: e).head? == some '/') = rooted := by
    cases pre <;> simp [rooted]
  have hne : pre ++ '/' :: e ≠ [] := by simp
  unfold filepathClean
  rw [if_neg hne]
  simp only [hr, List.foldl_append, List.foldl_cons]
  have hstep : cleanChar rooted (List.foldl (cleanChar rooted) ([], []) pre) '/' = (st, []) := by
    simp [cleanChar, st, s]
  rw [hstep, cleanFold_elem rooted e st [] hsep]
  simp only [List.nil_append]
  rw [cleanElem_real rooted st e h0 h1 h2]
  unfold cleanRender
  rw [joinElems_cons]
  have hout : (if rooted = true then ['/'] else []) ++
      ((if st = [] then [] else joinElems st ++ ['/']) ++ e) ≠ [] := by
    simp [h0]
  rw [if_neg hout]
  simp

/-! ## The probed paths -/

theorem lastSep_split : ∀ x : Str, '/' ∈ x → ∃ y z, x = y ++ '/' :: z ∧ '/' ∉ z := by
  intro x
  induction x with
  | nil => intro h; simp at h
  | cons c x ih =>
    intro h
    by_cases hx : '/' ∈ x
    · obtain ⟨y, z, hyz, hz⟩ := ih hx
      exact ⟨c :: y, z, by rw [hyz]; rfl, hz⟩
    · have hc : '/' = c := by
        rcases List.mem_cons.mp h with h | h
        · exact h
        · exact absurd h hx
      exact ⟨[], x, by rw [← hc]; rfl, hx⟩

theorem filepathClean_ne_nil (path : Str) : filepathClean path ≠ [] := by
  unfold filepathClean
  by_cases h : path = []
  · simp [h]
  · simp only [h, if_false]
    split <;> simp_all

theorem extScan_no_sep : ∀ (rev acc : Str), '/' ∉ acc → '/' ∉ extScan rev acc := by
  intro rev
  induction rev with
  | nil => intro acc _; simp [extScan]
  | cons c rev ih =>
    intro acc hacc
    simp only [extScan]
    by_cases h1 : c = '/'
    · simp [h1]
    · by_cases h2 : c = '.'
      · simp only [h1, h2, if_false, if_true]
        intro hm
        rcases List.mem_cons.mp hm with h | h
        · exact absurd h (by decide)
        · exact hacc h
      · simp only [h1, h2, if_false]
        apply ih
        intro hm
        rcases List.mem_cons.mp hm with h | h
        · exact h1 h.symm
        · exact hacc h

/-- Every probed path is one fixed text, the counter in decimal, and one
fixed text. -/
theorem candidate_shape (targetPath : Str) : ∃ lead tail : Str, ∀ counter,
    candidate targetPath counter = lead ++ strconvItoa counter ++ tail := by
  have hdir : filepathDir targetPath ≠ [] := filepathClean_ne_nil _
  have hext : '/' ∉ filepathExt (filepathBase targetPath) :=
    extScan_no_sep _ _ (List.not_mem_nil _)
  obtain ⟨y, z, hyz, hz⟩ := lastSep_split
    (filepathDir targetPath ++
      '/' :: stringsTrimSuffix (filepathBase targetPath) (filepathExt (filepathBase targetPath)))
    (by simp)
  obtain ⟨lead, hlead⟩ := filepathClean_last y
  refine ⟨lead ++ z ++ ['_'], filepathExt (filepathBase targetPath), ?_⟩
  intro counter
  have hsep : '/' ∉ z ++ '_' :: strconvItoa counter ++ filepathExt (filepathBase targetPath) := by
    simp only [List.mem_append, List.mem_cons, not_or]
    exact ⟨⟨hz, by decide, strconvItoa_no_sep counter⟩, hext⟩
  have hmem : '_' ∈ z ++ '_' :: strconvItoa counter ++ filepathExt (filepathBase targetPath) := by
    simp
  have key := hlead (z ++ '_' :: strconvItoa counter ++ filepathExt (filepathBase targetPath))
    hsep (by intro h; rw [h] at hmem; simp at hmem)
    (by intro h; rw [h] at hmem; revert hmem; decide)
    (by intro h; rw [h] at hmem; revert hmem; decide)
  unfold candidate filepathJoin
  simp only [hdir, ne_eq, not_false_eq_true, if_true]
  have hre : filepathDir targetPath ++
      '/' :: (stringsTrimSuffix (filepathBase targetPath) (filepathExt (filepathBase targetPath)) ++
        '_' :: strconvItoa counter ++ filepathExt (filepathBase targetPath)) =
      y ++ '/' :: (z ++ '_' :: strconvItoa counter ++ filepathExt (filepathBase targetPath)) := by
    have := congrArg
      (fun l => l ++ '_' :: strconvItoa counter ++ filepathExt (filepathBase targetPath)) hyz
    simpa using this
  rw [hre, key]
  simp

theorem candidate_injective (targetPath : Str) (a b : Nat)
    (h : candidate targetPath a = candidate targetPath b) : a = b := by
  obtain ⟨lead, tail, hshape⟩ := candidate_shape targetPath
  rw [hshape a, hshape b] at h
  exact strconvItoa_injective a b (List.append_cancel_left (List.append_cancel_right h))

/-! ## Path resolution -/

theorem lookup_cons_ne (fs : FS) (p q : Str) (v : Node) (h : q ≠ p) :
    List.lookup q ((p, v) :: fs) = List.lookup q fs := by
  have hb : (q == p) = false := by simpa using h
  rw [List.lookup_cons, hb]

theorem lookup_cons_self (fs : FS) (p : Str) (v : Node) :
    List.lookup p ((p, v) :: fs) = some v := by
  rw [List.lookup_cons]
  simp

theorem lookup_mem_keys (fs : FS) (path : Str) (h : List.lookup path fs ≠ none) :
    path ∈ fs.map Prod.fst := by
  induction fs with
  | nil => exact absurd rfl h
  | cons e fs ih =>
    obtain ⟨k, v⟩ := e
    rw [List.map_cons]
    by_cases hk : path = k
    · rw [hk]; exact List.mem_cons_self _ _
    · rw [lookup_cons_ne fs k path v hk] at h
      exact List.mem_cons_of_mem _ (ih h)

/-- Passing through directories reads the state at their keys only. -/
theorem enterAll_congr (fs fs2 : FS) (dirs : List (Str × Str))
    (h : ∀ d ∈ dirs, List.lookup d.1 fs2 = List.lookup d.1 fs) :
    enterAll fs2 dirs = enterAll fs dirs := by
  induction dirs with
  | nil => rfl
  | cons d rest ih =>
    have hd : enterDir fs2 d = enterDir fs d := by
      unfold enterDir
      rw [h d (List.mem_cons_self _ _)]
    simp only [enterAll, hd]
    rw [ih (fun x hx => h x (List.mem_cons_of_mem _ hx))]

/-- Directories that were passed through are directories of the state. -/
theorem enterAll_none (fs : FS) (dirs : List (Str × Str)) (h : enterAll fs dirs = none) :
    ∀ d ∈ dirs, List.lookup d.1 fs = some .dir := by
  induction dirs with
  | nil => intro d hd; simp at hd
  | cons d rest ih =>
    simp only [enterAll] at h
    cases hd : enterDir fs d with
    | some errno => rw [hd] at h; simp at h
    | none =>
      rw [hd] at h
      have hlook : List.lookup d.1 fs = some .dir := by
        unfold enterDir at hd
        by_cases hlen : nameMax < byteLen d.2
        · simp [hlen] at hd
        · simp only [hlen, if_false] at hd
          cases hl : List.lookup d.1 fs with
          | none => rw [hl] at hd; simp at hd
          | some node =>
            rw [hl] at hd
            cases node <;> simp at hd
            rfl
      intro x hx
      rcases List.mem_cons.mp hx with hx | hx
      · rw [hx]; exact hlook
      · exact ih h x hx

theorem osIsNotExist_iff (r : StatResult) : osIsNotExist r = true ↔ r = .error .ENOENT := by
  cases r with
  | found info => simp [osIsNotExist]
  | error errno => cases errno <;> simp [osIsNotExist]

theorem osStat_found (fs : FS) (q : Str) (n : Node) (h : osStat fs q = .found n) :
    resolveParent fs q = none ∧ List.lookup q fs = some n := by
  unfold osStat at h
  cases hr : resolveParent fs q with
  | some errno => simp [hr] at h
  | none =>
    simp only [hr] at h
    cases hl : List.lookup q fs with
    | none => simp [hl] at h
    | some info =>
      simp only [hl, StatResult.found.injEq] at h
      exact ⟨rfl, by rw [h]⟩

theorem osStat_of_lookup (fs : FS) (q : Str) (n : Node) (hr : resolveParent fs q = none)
    (hl : List.lookup q fs = some n) : osStat fs q = .found n := by
  simp [osStat, hr, hl]

theorem resolveParent_none (fs : FS) (q : Str) (h : resolveParent fs q = none) :
    enterAll fs (scanPath q).dirs = none ∧ ¬ nameMax < byteLen (scanPath q).elem := by
  unfold resolveParent at h
  cases he : enterAll fs (scanPath q).dirs with
  | some errno => simp [he] at h
  | none =>
    simp only [he] at h
    by_cases hlen : nameMax < byteLen (scanPath q).elem
    · simp [hlen] at h
    · exact ⟨rfl, hlen⟩

/-- Resolution reads the state at the keys of the directories on the way. -/
theorem resolveParent_congr (fs fs2 : FS) (q : Str)
    (h : ∀ d ∈ (scanPath q).dirs, List.lookup d.1 fs2 = List.lookup d.1 fs) :
    resolveParent fs2 q = resolveParent fs q := by
  unfold resolveParent
  rw [enterAll_congr fs fs2 _ h]

/-- A state that differs from `fs` only at keys that are not directories of
`fs` resolves every reachable parent as `fs` does. -/
theorem resolveParent_keep (fs fs2 : FS) (q : Str) (hr : resolveParent fs q = none)
    (h : ∀ k, List.lookup k fs = some .dir → List.lookup k fs2 = some .dir) :
    resolveParent fs2 q = none := by
  rw [resolveParent_congr fs fs2 q, hr]
  intro d hd
  have hdir := enterAll_none fs _ (resolveParent_none fs q hr).1 d hd
  rw [hdir, h _ hdir]

theorem osStat_mem_keys (fs : FS) (path : Str) (n : Node) (h : osStat fs path = .found n) :
    path ∈ fs.map Prod.fst :=
  lookup_mem_keys fs path (by rw [(osStat_found fs path n h).2]; simp)

/-! ## Duplicate-name resolution -/

/-- When `os.Stat` fails on no probed path for a reason other than `ENOENT`,
one of the first `fs.length + 1` probed paths is free. -/
theorem free_candidate (fs : FS) (targetPath : Str)
    (hstat : ∀ k errno, 1 ≤ k → k ≤ fs.length + 1 →
      osStat fs (candidate targetPath k) = .error errno → errno = .ENOENT) :
    ∃ k, 1 ≤ k ∧ k ≤ fs.length + 1 ∧
      osStat fs (candidate targetPath k) = .error .ENOENT := by
  by_contra hcon
  have hall : ∀ k, 1 ≤ k → k ≤ fs.length + 1 →
      ∃ n, osStat fs (candidate targetPath k) = .found n := by
    intro k h1 h2
    cases hs : osStat fs (candidate targetPath k) with
    | found n => exact ⟨n, rfl⟩
    | error errno =>
      have := hstat k errno h1 h2 hs
      rw [this] at hs
      exact absurd ⟨k, h1, h2, hs⟩ hcon
  have hnodup : ((List.range (fs.length + 1)).map
      (fun i => candidate targetPath (i + 1))).Nodup := by
    apply List.Nodup.map _ (List.nodup_range _)
    intro a b hab
    have := candidate_injective targetPath _ _ hab
    omega
  have hsub : (List.range (fs.length + 1)).map (fun i => candidate targetPath (i + 1)) ⊆
      fs.map Prod.fst := by
    intro p hp
    obtain ⟨i, hi, rfl⟩ := List.mem_map.mp hp
    have hi2 := List.mem_range.mp hi
    obtain ⟨n, hn⟩ := hall (i + 1) (by omega) (by omega)
    exact osStat_mem_keys fs _ n hn
  have hlen := (hnodup.subperm hsub).length_le
  simp at hlen

/-- The loop returns the first probed path, from its counter on, that
`os.Stat` reports as not existing, when the fuel reaches it. -/
theorem probeLoop_first_free (fs : FS) (targetPath : Str) (fuel : Nat) :
    ∀ (counter k : Nat), counter ≤ k → k < counter + fuel →
      osStat fs (candidate targetPath k) = .error .ENOENT →
      (∀ j, counter ≤ j → j < k → osStat fs (candidate targetPath j) ≠ .error .ENOENT) →
      probeLoop fs targetPath fuel counter = some (candidate targetPath k) := by
  induction fuel with
  | zero => intro counter k h1 h2; omega
  | succ fuel ih =>
    intro counter k h1 h2 hfree hbusy
    simp only [probeLoop]
    by_cases hk : counter = k
    · subst hk
      simp [hfree, osIsNotExist]
    · have hc := hbusy counter (Nat.le_refl _) (by omega)
      have hc2 : osIsNotExist (osStat fs (candidate targetPath counter)) = false := by
        cases h : osIsNotExist (osStat fs (candidate targetPath counter)) with
        | false => rfl
        | true => exact absurd ((osIsNotExist_iff _).mp h) hc
      simp only [hc2, Bool.false_eq_true, if_false]
      exact ih (counter + 1) k (by omega) (by omega) hfree
        (fun j hj1 hj2 => hbusy j (by omega) hj2)

/-- What the loop returns is a probed path that `os.Stat` reports as not
existing. -/
theorem probeLoop_some (fs : FS) (targetPath : Str) (fuel : Nat) :
    ∀ (counter : Nat) (p : Str), probeLoop fs targetPath fuel counter = some p →
      osStat fs p = .error .ENOENT ∧ ∃ k, counter ≤ k ∧ p = candidate targetPath k := by
  induction fuel with
  | zero => intro counter p h; simp [probeLoop] at h
  | succ fuel ih =>
    intro counter p h
    simp only [probeLoop] at h
    by_cases hc : osIsNotExist (osStat fs (candidate targetPath counter)) = true
    · simp only [hc, if_true, Option.some.injEq] at h
      rw [← h]
      exact ⟨(osIsNotExist_iff _).mp hc, counter, Nat.le_refl _, rfl⟩
    · simp only [hc, if_false] at h
      obtain ⟨h1, k, hk, hp⟩ := ih _ _ h
      exact ⟨h1, k, by omega, hp⟩

/-- When `os.Stat` reports no probed path as not existing, the loop does not
end, whatever the fuel. -/
theorem probeLoop_none (fs : FS) (targetPath : Str)
    (h : ∀ k, osStat fs (candidate targetPath k) ≠ .error .ENOENT) (fuel : Nat) :
    ∀ counter, probeLoop fs targetPath fuel counter = none := by
  induction fuel with
  | zero => intro counter; rfl
  | succ fuel ih =>
    intro counter
    have hc : osIsNotExist (osStat fs (candidate targetPath counter)) = false := by
      cases hx : osIsNotExist (osStat fs (candidate targetPath counter)) with
      | false => rfl
      | true => exact absurd ((osIsNotExist_iff _).mp hx) (h counter)
    simp only [probeLoop, hc, Bool.false_eq_true, if_false]
    exact ih _

/-- The least probed path reported as not existing. -/
theorem least_free_candidate (fs : FS) (targetPath : Str) (bound : Nat)
    (hex : ∃ k, 1 ≤ k ∧ k ≤ bound ∧ osStat fs (candidate targetPath k) = .error .ENOENT) :
    ∃ k, 1 ≤ k ∧ k ≤ bound ∧ osStat fs (candidate targetPath k) = .error .ENOENT ∧
      ∀ j, 1 ≤ j → j < k → osStat fs (candidate targetPath j) ≠ .error .ENOENT := by
  have hex2 : ∃ k, 1 ≤ k ∧ osStat fs (candidate targetPath k) = .error .ENOENT := by
    obtain ⟨k, h1, _, h3⟩ := hex
    exact ⟨k, h1, h3⟩
  obtain ⟨k0, hk1, hk0le, hk0⟩ := hex
  refine ⟨Nat.find hex2, (Nat.find_spec hex2).1, ?_, (Nat.find_spec hex2).2, ?_⟩
  · have := Nat.find_min' hex2 ⟨hk1, hk0⟩
    omega
  · intro j hj1 hj2 hfree
    exact Nat.find_min hex2 hj2 ⟨hj1, hfree⟩

theorem handleDuplicateFilename_free (fs : FS) (fuel : Nat) (targetPath p : Str)
    (h : handleDuplicateFilename fs fuel targetPath = some p) :
    osStat fs p = .error .ENOENT ∧
      (p = targetPath ∨ ∃ k, 1 ≤ k ∧ p = candidate targetPath k) := by
  unfold handleDuplicateFilename at h
  by_cases ht : osIsNotExist (osStat fs targetPath) = true
  · simp only [ht, if_true, Option.some.injEq] at h
    rw [← h]
    exact ⟨(osIsNotExist_iff _).mp ht, Or.inl rfl⟩
  · simp only [ht, if_false] at h
    obtain ⟨h1, k, hk, hp⟩ := probeLoop_some _ _ _ _ _ h
    exact ⟨h1, Or.inr ⟨k, hk, hp⟩⟩

theorem handleDuplicateFilename_of_free (fs : FS) (targetPath : Str)
    (h : osStat fs targetPath = .error .ENOENT) (fuel : Nat) :
    handleDuplicateFilename fs fuel targetPath = some targetPath := by
  simp [handleDuplicateFilename, h, osIsNotExist]

theorem handleDuplicateFilename_busy (fs : FS) (fuel : Nat) (targetPath : Str) (k : Nat)
    (htarget : osStat fs targetPath ≠ .error .ENOENT) (h1 : 1 ≤ k) (hfuel : k ≤ fuel)
    (hfree : osStat fs (candidate targetPath k) = .error .ENOENT)
    (hbusy : ∀ j, 1 ≤ j → j < k → osStat fs (candidate targetPath j) ≠ .error .ENOENT) :
    handleDuplicateFilename fs fuel targetPath = some (candidate targetPath k) := by
  unfold handleDuplicateFilename
  have ht : osIsNotExist (osStat fs targetPath) = false := by
    cases h : osIsNotExist (osStat fs targetPath) with
    | false => rfl
    | true => exact absurd ((osIsNotExist_iff _).mp h) htarget
  simp only [ht, Bool.false_eq_true, if_false]
  exact probeLoop_first_free fs targetPath fuel 1 k h1 (by omega) hfree hbusy

/-- With more fuel than entries, and no `os.Stat` failure other than `ENOENT`
on the first `fs.length + 1` probed paths, `handleDuplicateFilename`
returns. -/
theorem handleDuplicateFilename_returns (fs : FS) (fuel : Nat) (targetPath : Str)
    (hfuel : fs.length < fuel)
    (hstat : ∀ k errno, 1 ≤ k → k ≤ fs.length + 1 →
      osStat fs (candidate targetPath k) = .error errno → errno = .ENOENT) :
    ∃ p, handleDuplicateFilename fs fuel targetPath = some p := by
  by_cases ht : osStat fs targetPath = .error .ENOENT
  · exact ⟨targetPath, handleDuplicateFilename_of_free fs targetPath ht fuel⟩
  · obtain ⟨k, h1, h2, h3, h4⟩ := least_free_candidate fs targetPath (fs.length + 1)
      (free_candidate fs targetPath hstat)
    exact ⟨candidate targetPath k,
      handleDuplicateFilename_busy fs fuel targetPath k ht h1 (by omega) h3 h4⟩

/-- When `os.Stat` fails on the target and on every probed path for a reason
other than `ENOENT`, `handleDuplicateFilename` does not return. -/
theorem handleDuplicateFilename_none (fs : FS) (targetPath : Str)
    (ht : osStat fs targetPath ≠ .error .ENOENT)
    (h : ∀ k, osStat fs (candidate targetPath k) ≠ .error .ENOENT) (fuel : Nat) :
    handleDuplicateFilename fs fuel targetPath = none := by
  unfold handleDuplicateFilename
  have hc : osIsNotExist (osStat fs targetPath) = false := by
    cases hx : osIsNotExist (osStat fs targetPath) with
    | false => rfl
    | true => exact absurd ((osIsNotExist_iff _).mp hx) ht
  simp only [hc, Bool.false_eq_true, if_false]
  exact probeLoop_none fs targetPath h fuel 1

theorem scan_dirs_append (w : Str) : ∀ s : Scan, ∃ more, (w.foldl scanChar s).dirs = s.dirs ++ more := by
  induction w with
  | nil => intro s; exact ⟨[], by simp⟩
  | cons c w ih =>
    intro s
    obtain ⟨more, hmore⟩ := ih (scanChar s c)
    rw [List.foldl_cons, hmore]
    unfold scanChar
    by_cases hc : c = '/'
    · by_cases he : s.elem = []
      · exact ⟨more, by simp [hc, he]⟩
      · exact ⟨(s.seen, s.elem) :: more, by simp [hc, he]⟩
    · exact ⟨more, by simp [hc]⟩

theorem enterAll_append_some (fs : FS) (errno : Errno) (l m : List (Str × Str))
    (h : enterAll fs l = some errno) : enterAll fs (l ++ m) = some errno := by
  induction l with
  | nil => simp [enterAll] at h
  | cons d rest ih =>
    simp only [List.cons_append, enterAll] at h ⊢
    cases hd : enterDir fs d with
    | some e => rw [hd] at h; exact h
    | none => rw [hd] at h; exact ih h

/-- Below a directory that cannot be passed `os.Stat` fails with the error of
that directory. -/
theorem osStat_below (fs : FS) (a w : Str) (errno : Errno)
    (h : enterAll fs (scanPath a).dirs = some errno) : osStat fs (a ++ w) = .error errno := by
  obtain ⟨more, hmore⟩ := scan_dirs_append w (scanPath a)
  have hd : (scanPath (a ++ w)).dirs = (scanPath a).dirs ++ more := by
    unfold scanPath at hmore ⊢
    rw [List.foldl_append]
    exact hmore
  simp [osStat, resolveParent, hd, enterAll_append_some fs errno _ more h]

theorem getElem_append_length (l : Str) (c : Char) (t : Str) :
    (l ++ c :: t)[l.length]? = some c := by
  induction l with
  | nil => simp
  | cons x l ih => simpa using ih

/-- Every path probed for `Docs/report.pdf` lies in `Docs`. -/
theorem candidate_in_docs (k : Nat) :
    ∃ w, candidate "Docs/report.pdf".toList k = "Docs/".toList ++ w := by
  obtain ⟨lead, tail, hshape⟩ := candidate_shape "Docs/report.pdf".toList
  have h1 : lead ++ ['1'] ++ tail = "Docs/report_1.pdf".toList := by
    rw [← show strconvItoa 1 = ['1'] from by decide, ← hshape 1]; decide
  have h2 : lead ++ ['2'] ++ tail = "Docs/report_2.pdf".toList := by
    rw [← show strconvItoa 2 = ['2'] from by decide, ← hshape 2]; decide
  have hlen : lead.length < 17 := by
    have := congrArg List.length h1
    simp at this
    omega
  have hg1 : ("Docs/report_1.pdf".toList)[lead.length]? = some '1' := by
    rw [← h1, List.append_assoc]; exact getElem_append_length lead '1' tail
  have hg2 : ("Docs/report_2.pdf".toList)[lead.length]? = some '2' := by
    rw [← h2, List.append_assoc]; exact getElem_append_length lead '2' tail
  have key : ∀ n, n < 17 → ("Docs/report_1.pdf".toList)[n]? = some '1' →
      ("Docs/report_2.pdf".toList)[n]? = some '2' → n = 12 := by decide
  have h12 := key _ hlen hg1 hg2
  have hlead : lead = "Docs/report_".toList := by
    have := congrArg (List.take 12) h1
    rw [List.append_assoc, List.take_left' h12] at this
    rw [this]; decide
  refine ⟨"report_".toList ++ strconvItoa k ++ tail, ?_⟩
  rw [hshape k, hlead]
  simp

/-- Where `Docs` cannot be passed, `os.Stat` fails with the error of `Docs` on
every path probed for `Docs/report.pdf`. -/
theorem candidate_blocked (fs : FS) (errno : Errno)
    (h : enterAll fs (scanPath "Docs/".toList).dirs = some errno) (k : Nat) :
    osStat fs (candidate "Docs/report.pdf".toList k) = .error errno := by
  obtain ⟨w, hw⟩ := candidate_in_docs k
  rw [hw]
  exact osStat_below fs _ w _ h

theorem candidate_notDir (k : Nat) :
    osStat notDirFS (candidate "Docs/report.pdf".toList k) = .error .ENOTDIR :=
  candidate_blocked notDirFS _ (by decide) k

theorem candidate_locked (k : Nat) :
    osStat lockedFS (candidate "Docs/report.pdf".toList k) = .error .EACCES :=
  candidate_blocked lockedFS _ (by decide) k

/-- C10 at a failing input: where the documents folder `Docs` may not be
searched, `os.Stat` fails with `EACCES` on `Docs/report.pdf` and on every
probed path, `os.IsNotExist` is false of that error, and the probing loop
returns for no amount of fuel: it does not terminate. The same holds, with
`ENOTDIR`, where `Docs` is a regular file. -/
theorem C10_probing_diverges :
    (osStat lockedFS "Docs/report.pdf".toList = .error .EACCES ∧
      (∀ k, osStat lockedFS (candidate "Docs/report.pdf".toList k) = .error .EACCES) ∧
      osIsNotExist (.error .EACCES) = false ∧
      ∀ fuel counter, probeLoop lockedFS "Docs/report.pdf".toList fuel counter = none) ∧
    (osStat notDirFS "Docs/report.pdf".toList = .error .ENOTDIR ∧
      (∀ k, osStat notDirFS (candidate "Docs/report.pdf".toList k) = .error .ENOTDIR) ∧
      osIsNotExist (.error .ENOTDIR) = false ∧
      ∀ fuel counter, probeLoop notDirFS "Docs/report.pdf".toList fuel counter = none) :=
  ⟨⟨by decide, candidate_locked, rfl,
    fun fuel counter => probeLoop_none lockedFS _
      (fun k => by rw [candidate_locked k]; simp) fuel counter⟩,
   ⟨by decide, candidate_notDir, rfl,
    fun fuel counter => probeLoop_none notDirFS _
      (fun k => by rw [candidate_notDir k]; simp) fuel counter⟩⟩

/-- In dry-run mode `moveFile`, when it returns, returns no error, leaves the
state as it was and logs as destination the path `handleDuplicateFilename`
resolved. -/
theorem moveFile_dry_run (cfg : Config) (fuel : Nat) (fs : FS) (filePath targetFolder : Str)
    (o : Outcome) (hdry : cfg.DryRun = true)
    (hmove : moveFile cfg fuel fs filePath targetFolder = some o) :
    ∃ resolved,
      handleDuplicateFilename fs fuel (filepathJoin targetFolder (filepathBase filePath)) =
        some resolved ∧
      o = ⟨none, fs, ["DRY RUN: Would move ".toList ++ filePath ++ " -> ".toList ++ resolved]⟩ := by
  unfold moveFile at hmove
  cases hres : handleDuplicateFilename fs fuel
      (filepathJoin targetFolder (filepathBase filePath)) with
  | none => simp [hres] at hmove
  | some resolved =>
    simp only [hres, hdry, if_true, Option.some.injEq] at hmove
    exact ⟨resolved, rfl, hmove.symm⟩

/-- C6 at a failing input: in dry-run mode, with `in/report.pdf` to move into
the folder `Docs`, which exists and may not be searched, `moveFile` returns
for no amount of fuel, neither `nil` nor an error: the resolution of
`Docs/report.pdf` inside it does not end. -/
theorem C6_dry_run_diverges :
    (docsConfig true).DryRun = true ∧
    osStat lockedFS "in/report.pdf".toList = .found (.file [2, 3]) ∧
    osStat lockedFS "Docs".toList = .found .lockedDir ∧
    filepathJoin "Docs".toList (filepathBase "in/report.pdf".toList) =
      "Docs/report.pdf".toList ∧
    ∀ fuel, moveFile (docsConfig true) fuel lockedFS "in/report.pdf".toList
      "Docs".toList = none := by
  refine ⟨rfl, by decide, by decide, by decide, ?_⟩
  intro fuel
  have hjoin : filepathJoin "Docs".toList (filepathBase "in/report.pdf".toList) =
      "Docs/report.pdf".toList := by decide
  have hnone := handleDuplicateFilename_none lockedFS "Docs/report.pdf".toList (by decide)
    (fun k => by rw [candidate_locked k]; simp) fuel
  unfold moveFile
  simp only [hjoin, hnone]

/-! ## Ignore policy and stability -/

theorem patternLoop_iff (lib : Stdlib) (fileName : Str) (patterns : List Str) :
    patternLoop lib fileName patterns = true ↔
      ∃ pattern ∈ patterns, lib.Match pattern fileName = true := by
  induction patterns with
  | nil => simp [patternLoop]
  | cons x rest ih =>
    simp only [patternLoop, List.mem_cons, exists_eq_or_imp]
    by_cases h : lib.Match x fileName = true
    · simp [h]
    · simp [h, ih]

/-- C4: `shouldIgnoreFile` is true exactly when the base name is matched by a
configured pattern, or starts with `.`, or ends with `.tmp`; and when it is
true `processFile` returns the "should be ignored" error at once: the state is
the one it was called in, nothing is logged and no stage (stability check,
classification, move) has run. -/
theorem C4_ignore_policy (cfg : Config) (lib : Stdlib) (order : List SortRule) (fuel : Nat)
    (fs fsLater : FS) (filePath : Str) :
    (shouldIgnoreFile cfg lib filePath = true ↔
      ((∃ pattern ∈ cfg.IgnorePatterns, lib.Match pattern (filepathBase filePath) = true) ∨
        ['.'] <+: filepathBase filePath ∨ ".tmp".toList <:+ filepathBase filePath)) ∧
    (shouldIgnoreFile cfg lib filePath = true →
      processFile cfg lib order fuel fs fsLater filePath =
        some ⟨some (filePath ++ " should be ignored based on the config".toList), fs, [], []⟩) := by
  constructor
  · unfold shouldIgnoreFile
    simp only [stringsHasPrefix, stringsHasSuffix]
    rw [← patternLoop_iff, ← List.isPrefixOf_iff_prefix, ← List.isSuffixOf_iff_suffix]
    by_cases h1 : patternLoop lib (filepathBase filePath) cfg.IgnorePatterns = true <;>
      by_cases h2 : List.isPrefixOf ['.'] (filepathBase filePath) = true <;>
        by_cases h3 : List.isSuffixOf ".tmp".toList (filepathBase filePath) = true <;>
          simp [h1, h2, h3]
  · intro h
    simp [processFile, h]

/-- C4 at `in/build.tmp` with an empty pattern list: the baseline test alone
ignores the file, and `processFile` stops before any stage. -/
theorem C4_ignore_policy_witness :
    twoRuleConfig.IgnorePatterns = [] ∧
    shouldIgnoreFile twoRuleConfig exampleLib "in/build.tmp".toList = true ∧
    processFile twoRuleConfig exampleLib [ruleA, ruleB] 0 exampleFS exampleFS
      "in/build.tmp".toList =
      some ⟨some "in/build.tmp should be ignored based on the config".toList, exampleFS, [], []⟩ :=
  ⟨rfl, by decide,
   (C4_ignore_policy twoRuleConfig exampleLib [ruleA, ruleB] 0 exampleFS exampleFS
      "in/build.tmp".toList).2 (by decide)⟩

/-- C8: `isFileComplete` answers true exactly when both samples succeed and
give the same size; a failed sample (whatever the error of `os.Stat`) or two
different sizes give false (the function has no error result). -/
theorem C8_stability (fs fsLater : FS) (filePath : Str) :
    (isFileComplete fs fsLater filePath).1 = true ↔
      ∃ size, statSize (osStat fs filePath) = some size ∧
        statSize (osStat fsLater filePath) = some size := by
  unfold isFileComplete
  cases h1 : osStat fs filePath with
  | error e1 => simp [statSize]
  | found info1 =>
    cases h2 : osStat fsLater filePath with
    | error e2 => simp [statSize]
    | found info2 =>
      simp only [statSize, Option.some.injEq, beq_iff_eq]
      constructor
      · intro h; exact ⟨info1.size, rfl, h.symm⟩
      · rintro ⟨size, ha, hb⟩; rw [ha, hb]

/-! ## The per-file pipeline -/

theorem isFileComplete_state (fs fsLater : FS) (filePath : Str) :
    ((isFileComplete fs fsLater filePath).2 = fs ∨ (isFileComplete fs fsLater filePath).2 = fsLater) ∧
    ((isFileComplete fs fsLater filePath).1 = true →
      (isFileComplete fs fsLater filePath).2 = fsLater) := by
  unfold isFileComplete
  cases osStat fs filePath with
  | error e1 => simp
  | found info1 =>
    cases osStat fsLater filePath with
    | error e2 => simp
    | found info2 => simp

/-- C9: a file that is ignored, or reported unstable, or matched by no rule
makes `processFile` return an error and write nothing: the state at return is
the state at the call or the state other writers left during the sleep of the
stability check (the state at the call when nobody else wrote), and the move
stage is not reached. The error names the reason. The move stage is reached,
and the state differs from those two, only for a file that is not ignored, is
stable and has a matching rule. -/
theorem C9_skipped_files_untouched (cfg : Config) (lib : Stdlib) (order : List SortRule)
    (fuel : Nat) (fs fsLater : FS) (filePath : Str) :
    ((shouldIgnoreFile cfg lib filePath = true ∨
        (isFileComplete fs fsLater filePath).1 = false ∨
        determineTargetFolder cfg lib order filePath = []) →
      ∃ r, processFile cfg lib order fuel fs fsLater filePath = some r ∧ r.err ≠ none ∧
        (r.fs = fs ∨ r.fs = fsLater) ∧ (fsLater = fs → r.fs = fs) ∧ Stage.move ∉ r.stages) ∧
    (shouldIgnoreFile cfg lib filePath = true →
      processFile cfg lib order fuel fs fsLater filePath =
        some ⟨some (filePath ++ " should be ignored based on the config".toList), fs, [], []⟩) ∧
    (shouldIgnoreFile cfg lib filePath = false →
      (isFileComplete fs fsLater filePath).1 = false →
      processFile cfg lib order fuel fs fsLater filePath =
        some ⟨some (filePath ++ " is still being written".toList),
          (isFileComplete fs fsLater filePath).2,
          ["File still being written, skipping: ".toList ++ filePath], [.stability]⟩) ∧
    (shouldIgnoreFile cfg lib filePath = false →
      (isFileComplete fs fsLater filePath).1 = true →
      determineTargetFolder cfg lib order filePath = [] →
      processFile cfg lib order fuel fs fsLater filePath =
        some ⟨some ("no matching rule for file: ".toList ++ filePath), fsLater,
          ["No matching rule for file: ".toList ++ filePath],
          [.stability, .classification]⟩) ∧
    (∀ r, processFile cfg lib order fuel fs fsLater filePath = some r →
      (Stage.move ∈ r.stages ∨ (r.fs ≠ fs ∧ r.fs ≠ fsLater)) →
      shouldIgnoreFile cfg lib filePath = false ∧
        (isFileComplete fs fsLater filePath).1 = true ∧
        determineTargetFolder cfg lib order filePath ≠ []) := by
  have hstate := isFileComplete_state fs fsLater filePath
  have hA : shouldIgnoreFile cfg lib filePath = true →
      processFile cfg lib order fuel fs fsLater filePath =
        some ⟨some (filePath ++ " should be ignored based on the config".toList), fs, [], []⟩ := by
    intro h; simp [processFile, h]
  have hB : shouldIgnoreFile cfg lib filePath = false →
      (isFileComplete fs fsLater filePath).1 = false →
      processFile cfg lib order fuel fs fsLater filePath =
        some ⟨some (filePath ++ " is still being written".toList),
          (isFileComplete fs fsLater filePath).2,
          ["File still being written, skipping: ".toList ++ filePath], [.stability]⟩ := by
    intro h1 h2; simp [processFile, h1, h2]
  have hC : shouldIgnoreFile cfg lib filePath = false →
      (isFileComplete fs fsLater filePath).1 = true →
      determineTargetFolder cfg lib order filePath = [] →
      processFile cfg lib order fuel fs fsLater filePath =
        some ⟨some ("no matching rule for file: ".toList ++ filePath), fsLater,
          ["No matching rule for file: ".toList ++ filePath],
          [.stability, .classification]⟩ := by
    intro h1 h2 h3; simp [processFile, h1, h2, h3, hstate.2 h2]
  have hskip : (shouldIgnoreFile cfg lib filePath = true ∨
        (isFileComplete fs fsLater filePath).1 = false ∨
        determineTargetFolder cfg lib order filePath = []) →
      ∃ r, processFile cfg lib order fuel fs fsLater filePath = some r ∧ r.err ≠ none ∧
        (r.fs = fs ∨ r.fs = fsLater) ∧ (fsLater = fs → r.fs = fs) ∧
        Stage.move ∉ r.stages := by
    intro h
    by_cases h1 : shouldIgnoreFile cfg lib filePath = true
    · exact ⟨_, hA h1, by simp, Or.inl rfl, fun _ => rfl, by simp⟩
    · have h1f : shouldIgnoreFile cfg lib filePath = false := by simpa using h1
      by_cases h2 : (isFileComplete fs fsLater filePath).1 = true
      · have h3 : determineTargetFolder cfg lib order filePath = [] := by
          rcases h with h | h | h
          · exact absurd h h1
          · rw [h2] at h; exact absurd h (by decide)
          · exact h
        exact ⟨_, hC h1f h2 h3, by simp, Or.inr rfl, fun e => e, by simp⟩
      · have h2f : (isFileComplete fs fsLater filePath).1 = false := by simpa using h2
        refine ⟨_, hB h1f h2f, by simp, hstate.1, ?_, by simp⟩
        intro e
        rcases hstate.1 with h | h
        · exact h
        · exact h.trans e
  refine ⟨hskip, hA, hB, hC, ?_⟩
  intro r hr hmut
  by_contra hcon
  have hcases : shouldIgnoreFile cfg lib filePath = true ∨
      (isFileComplete fs fsLater filePath).1 = false ∨
      determineTargetFolder cfg lib order filePath = [] := by
    by_cases h1 : shouldIgnoreFile cfg lib filePath = true
    · exact Or.inl h1
    · by_cases h2 : (isFileComplete fs fsLater filePath).1 = true
      · by_cases h3 : determineTargetFolder cfg lib order filePath = []
        · exact Or.inr (Or.inr h3)
        · exact absurd ⟨by simpa using h1, h2, h3⟩ hcon
      · exact Or.inr (Or.inl (by simpa using h2))
  obtain ⟨r2, hr2, _, hfs, _, hmove⟩ := hskip hcases
  rw [hr] at hr2
  cases hr2
  rcases hmut with h | ⟨h1, h2⟩
  · exact hmove h
  · rcases hfs with h | h
    · exact h1 h
    · exact h2 h

/-- C9 at the example state: `in/notes.xyz`, which no default rule matches,
gets the "no matching rule" error; `in/ghost.pdf`, which does not exist, gets
the "still being written" error; `in/.hidden` is ignored; each time the state
is untouched. -/
theorem C9_skipped_files_untouched_witness :
    processFile defaultConfig exampleLib (defaultSortRules.map Prod.snd) 0 exampleFS exampleFS
      "in/notes.xyz".toList =
      some ⟨some "no matching rule for file: in/notes.xyz".toList, exampleFS,
        ["No matching rule for file: in/notes.xyz".toList],
        [.stability, .classification]⟩ ∧
    processFile defaultConfig exampleLib (defaultSortRules.map Prod.snd) 0 exampleFS exampleFS
      "in/ghost.pdf".toList =
      some ⟨some "in/ghost.pdf is still being written".toList, exampleFS,
        ["File still being written, skipping: in/ghost.pdf".toList], [.stability]⟩ ∧
    processFile defaultConfig exampleLib (defaultSortRules.map Prod.snd) 0 exampleFS exampleFS
      "in/.hidden".toList =
      some ⟨some "in/.hidden should be ignored based on the config".toList, exampleFS, [], []⟩ ∧
    (∃ r, processFile defaultConfig exampleLib (defaultSortRules.map Prod.snd) 0 exampleFS
        exampleFS "in/notes.xyz".toList = some r ∧ r.err ≠ none ∧ r.fs = exampleFS) :=
  ⟨(C9_skipped_files_untouched defaultConfig exampleLib (defaultSortRules.map Prod.snd) 0
      exampleFS exampleFS "in/notes.xyz".toList).2.2.2.1 (by decide) (by decide) (by decide),
   (C9_skipped_files_untouched defaultConfig exampleLib (defaultSortRules.map Prod.snd) 0
      exampleFS exampleFS "in/ghost.pdf".toList).2.2.1 (by decide) (by decide),
   (C9_skipped_files_untouched defaultConfig exampleLib (defaultSortRules.map Prod.snd) 0
      exampleFS exampleFS "in/.hidden".toList).2.1 (by decide),
   ((C9_skipped_files_untouched defaultConfig exampleLib (defaultSortRules.map Prod.snd) 0
      exampleFS exampleFS "in/notes.xyz".toList).1 (Or.inr (Or.inr (by decide)))).elim
     (fun r h => ⟨r, h.1, h.2.1, h.2.2.2.1 rfl⟩)⟩

/-! ## `os.MkdirAll` and `os.Rename` -/

/-- A state that keeps every entry keeps every successful `os.Stat`. -/
theorem osStat_found_mono (fs fs1 : FS)
    (h : ∀ k n, List.lookup k fs = some n → List.lookup k fs1 = some n)
    (q : Str) (n : Node) (hq : osStat fs q = .found n) : osStat fs1 q = .found n := by
  obtain ⟨hr, hl⟩ := osStat_found fs q n hq
  exact osStat_of_lookup fs1 q n (resolveParent_keep fs fs1 q hr (fun k hk => h k _ hk)) (h q n hl)

theorem osMkdir_keeps (fs fs1 : FS) (path : Str) (h : osMkdir fs path = some fs1) :
    ∀ k n, List.lookup k fs = some n → List.lookup k fs1 = some n := by
  unfold osMkdir at h
  cases hr : resolveParent fs path with
  | some errno => simp [hr] at h
  | none =>
    simp only [hr] at h
    cases hl : List.lookup path fs with
    | some v => simp [hl] at h
    | none =>
      simp only [hl, Option.some.injEq] at h
      intro k n hk
      have hne : k ≠ path := by
        intro e; rw [e, hl] at hk; simp at hk
      rw [← h, lookup_cons_ne _ _ _ _ hne]
      exact hk

/-- Go `os.MkdirAll` keeps every entry there was. -/
theorem mkdirChain_keeps (chain : List Str) : ∀ (fs fs1 : FS), mkdirChain fs chain = some fs1 →
    ∀ k n, List.lookup k fs = some n → List.lookup k fs1 = some n := by
  induction chain with
  | nil =>
    intro fs fs1 h k n hk
    simp only [mkdirChain, Option.some.injEq] at h
    rw [← h]; exact hk
  | cons path parents ih =>
    intro fs fs1 h k n hk
    simp only [mkdirChain] at h
    cases hp : osStat fs path with
    | found node =>
      simp only [hp] at h
      cases node with
      | file c => simp at h
      | dir => simp only [Option.some.injEq] at h; rw [← h]; exact hk
      | lockedDir => simp only [Option.some.injEq] at h; rw [← h]; exact hk
    | error errno =>
      simp only [hp] at h
      cases hm : mkdirChain fs parents with
      | none => simp [hm] at h
      | some fs2 =>
        simp only [hm] at h
        have hk2 := ih fs fs2 hm k n hk
        cases hmk : osMkdir fs2 path with
        | some fs3 =>
          simp only [hmk, Option.some.injEq] at h
          rw [← h]
          exact osMkdir_keeps fs2 fs3 path hmk k n hk2
        | none =>
          simp only [hmk] at h
          cases hp2 : osStat fs2 path with
          | error e2 => simp [hp2] at h
          | found node =>
            simp only [hp2] at h
            cases node with
            | file c => simp at h
            | dir => simp only [Option.some.injEq] at h; rw [← h]; exact hk2
            | lockedDir => simp only [Option.some.injEq] at h; rw [← h]; exact hk2

theorem lookup_filter (a b : Str) (fs : FS) (q : Str) :
    List.lookup q (fs.filter (fun e => e.1 != a && e.1 != b)) =
      if q = a ∨ q = b then none else List.lookup q fs := by
  induction fs with
  | nil => simp
  | cons e fs ih =>
    obtain ⟨k, v⟩ := e
    rw [List.filter_cons]
    by_cases hk : k = a ∨ k = b
    · have hkb : ((k, v).1 != a && (k, v).1 != b) = false := by
        rcases hk with h | h <;> simp [h]
      rw [hkb, List.lookup_cons]
      simp only [Bool.false_eq_true, if_false]
      rw [ih]
      by_cases hq : q = k
      · subst hq; simp [hk]
      · have hb : (q == k) = false := by simpa using hq
        simp [hb]
    · have hkb : ((k, v).1 != a && (k, v).1 != b) = true := by
        simp only [not_or] at hk
        simp [hk.1, hk.2]
      rw [hkb, List.lookup_cons]
      simp only [if_true]
      rw [List.lookup_cons, ih]
      by_cases hq : q = k
      · subst hq; simp [hk]
      · have hb : (q == k) = false := by simpa using hq
        simp [hb]

/-- Renaming a regular file: the new state holds the content under the new
name, nothing under the old one, and every other entry as before. -/
theorem osRename_file (fs fs2 : FS) (oldpath newpath : Str) (content : List Nat)
    (hold : osStat fs oldpath = .found (.file content))
    (h : osRename fs oldpath newpath = some fs2) :
    osStat fs2 newpath = .found (.file content) ∧
    (oldpath ≠ newpath → osStat fs2 oldpath = .error .ENOENT) ∧
    (∀ q n, q ≠ oldpath → q ≠ newpath → osStat fs q = .found n → osStat fs2 q = .found n) := by
  obtain ⟨hrold, hlold⟩ := osStat_found fs oldpath _ hold
  unfold osRename at h
  simp only [hold] at h
  cases hr : resolveParent fs newpath with
  | some errno => simp [hr] at h
  | none =>
    simp only [hr] at h
    have hstate : List.lookup newpath fs ≠ some Node.dir ∧
        fs2 = (newpath, Node.file content) ::
          fs.filter (fun e => e.1 != oldpath && e.1 != newpath) := by
      cases hl : List.lookup newpath fs with
      | none => simp only [hl, Option.some.injEq] at h; exact ⟨by simp, h.symm⟩
      | some node =>
        cases node with
        | file c => simp only [hl, Option.some.injEq] at h; exact ⟨by simp, h.symm⟩
        | dir => simp [hl] at h
        | lockedDir => simp [hl] at h
    obtain ⟨hnd, hfs2⟩ := hstate
    have hkeep : ∀ k, List.lookup k fs = some Node.dir → List.lookup k fs2 = some Node.dir := by
      intro k hk
      have h1 : k ≠ oldpath := by intro e; rw [e, hlold] at hk; simp at hk
      have h2 : k ≠ newpath := by intro e; rw [e] at hk; exact hnd hk
      rw [hfs2, lookup_cons_ne _ _ _ _ h2, lookup_filter]
      simp [h1, h2, hk]
    refine ⟨?_, ?_, ?_⟩
    · exact osStat_of_lookup fs2 newpath _ (resolveParent_keep fs fs2 _ hr hkeep)
        (by rw [hfs2]; exact lookup_cons_self _ _ _)
    · intro hne
      have hl2 : List.lookup oldpath fs2 = none := by
        rw [hfs2, lookup_cons_ne _ _ _ _ hne, lookup_filter]
        simp
      simp [osStat, resolveParent_keep fs fs2 _ hrold hkeep, hl2]
    · intro q n hq1 hq2 hqn
      obtain ⟨hrq, hlq⟩ := osStat_found fs q n hqn
      exact osStat_of_lookup fs2 q n (resolveParent_keep fs fs2 _ hrq hkeep)
        (by rw [hfs2, lookup_cons_ne _ _ _ _ hq2, lookup_filter]; simp [hq1, hq2, hlq])

/-! ## Moving -/

/-- C7, as stated, fails: when the source file lies in the target folder
itself, the successful move takes it to `report_1.pdf` of that folder, and the
entry `Docs/report.pdf`, which was in the target folder before the call, is
there no longer. -/
theorem C7_counterexample :
    osStat exampleFS "Docs/report.pdf".toList = .found (.file [1]) ∧
    filepathDir "Docs/report.pdf".toList = "Docs".toList ∧
    (moveFile (docsConfig false) 6 exampleFS "Docs/report.pdf".toList "Docs".toList).map
      (fun o => (o.err, osStat o.fs "Docs/report.pdf".toList,
        osStat o.fs "Docs/report_1.pdf".toList)) =
      some (none, .error .ENOENT, .found (.file [1])) := by
  decide

/-- C7 (amended): a move without dry run of an existing regular file that
returns no error ends with the content at the resolved path (the joined target
when that was free, else a numbered candidate), which did not exist before,
with no entry left at the source path, and with every entry other than the
source, in the target folder or elsewhere, present and unchanged. The move
returns, given more fuel than the state has entries, whenever `os.Stat` fails
on none of the probed paths for a reason other than `ENOENT`. -/
theorem C7_move_keeps_entries (cfg : Config) (fuel : Nat) (fs : FS)
    (filePath targetFolder : Str) (content : List Nat)
    (hdry : cfg.DryRun = false)
    (hsrc : osStat fs filePath = .found (.file content)) :
    (∀ o, moveFile cfg fuel fs filePath targetFolder = some o → o.err = none →
      ∃ resolved,
        handleDuplicateFilename fs fuel (filepathJoin targetFolder (filepathBase filePath)) =
          some resolved ∧
        (resolved = filepathJoin targetFolder (filepathBase filePath) ∨
          ∃ k, 1 ≤ k ∧
            resolved = candidate (filepathJoin targetFolder (filepathBase filePath)) k) ∧
        osStat fs resolved = .error .ENOENT ∧
        osStat o.fs resolved = .found (.file content) ∧
        osStat o.fs filePath = .error .ENOENT ∧
        ∀ q n, q ≠ filePath → osStat fs q = .found n → osStat o.fs q = .found n) ∧
    (fs.length < fuel →
      (∀ k errno, 1 ≤ k → k ≤ fs.length + 1 →
        osStat fs (candidate (filepathJoin targetFolder (filepathBase filePath)) k) =
          .error errno → errno = .ENOENT) →
      ∃ o, moveFile cfg fuel fs filePath targetFolder = some o) := by
  constructor
  · intro o hmove hok
    unfold moveFile at hmove
    cases hres : handleDuplicateFilename fs fuel
        (filepathJoin targetFolder (filepathBase filePath)) with
    | none => simp [hres] at hmove
    | some resolved =>
      simp only [hres, hdry, Bool.false_eq_true, if_false] at hmove
      obtain ⟨hfree, hshape⟩ := handleDuplicateFilename_free _ _ _ _ hres
      have hne : filePath ≠ resolved := by
        intro e; rw [e, hfree] at hsrc; simp at hsrc
      cases hm : osMkdirAll fs (filepathDir resolved) with
      | none =>
        simp only [hm, Option.some.injEq] at hmove
        rw [← hmove] at hok
        simp at hok
      | some fs1 =>
        simp only [hm] at hmove
        have hkeep := osStat_found_mono fs fs1 (mkdirChain_keeps _ fs fs1 hm)
        cases hr : osRename fs1 filePath resolved with
        | none =>
          simp only [hr, Option.some.injEq] at hmove
          rw [← hmove] at hok
          simp at hok
        | some fs2 =>
          simp only [hr, Option.some.injEq] at hmove
          obtain ⟨ha, hb, hc⟩ := osRename_file fs1 fs2 filePath resolved content
            (hkeep _ _ hsrc) hr
          refine ⟨resolved, rfl, hshape, hfree, ?_, ?_, ?_⟩
          · rw [← hmove]; exact ha
          · rw [← hmove]; exact hb hne
          · intro q n hq hqn
            have hq2 : q ≠ resolved := by
              intro e; rw [e, hfree] at hqn; simp at hqn
            rw [← hmove]
            exact hc q n hq hq2 (hkeep _ _ hqn)
  · intro hfuel hstat
    obtain ⟨resolved, hres⟩ := handleDuplicateFilename_returns fs fuel
      (filepathJoin targetFolder (filepathBase filePath)) hfuel hstat
    unfold moveFile
    simp only [hres, hdry, Bool.false_eq_true, if_false]
    cases hm : osMkdirAll fs (filepathDir resolved) with
    | none => exact ⟨_, rfl⟩
    | some fs1 =>
      simp only []
      cases hr : osRename fs1 filePath resolved with
      | none => exact ⟨_, rfl⟩
      | some fs2 => exact ⟨_, rfl⟩

/-- The amended C7 at `in/report.pdf` moved into `Docs`, which already holds
`report.pdf`: no probed path makes `os.Stat` fail otherwise than with
`ENOENT`, the move returns and succeeds, the file lands at
`Docs/report_1.pdf`, the source path is empty and the older
`Docs/report.pdf` is untouched. -/
theorem C7_move_keeps_entries_witness :
    (∃ o, moveFile (docsConfig false) 6 exampleFS "in/report.pdf".toList "Docs".toList =
      some o) ∧
    ∃ o, moveFile (docsConfig false) 6 exampleFS "in/report.pdf".toList "Docs".toList = some o ∧
      o.err = none ∧
      osStat o.fs "Docs/report_1.pdf".toList = .found (.file [2, 3]) ∧
      osStat o.fs "in/report.pdf".toList = .error .ENOENT ∧
      osStat o.fs "Docs/report.pdf".toList = .found (.file [1]) := by
  have hcalc : moveFile (docsConfig false) 6 exampleFS "in/report.pdf".toList "Docs".toList =
      some ⟨none, ("Docs/report_1.pdf".toList, .file [2, 3]) ::
        exampleFS.filter (fun e => e.1 != "in/report.pdf".toList &&
          e.1 != "Docs/report_1.pdf".toList),
        ["Moved: in/report.pdf -> Docs/report_1.pdf".toList]⟩ := by decide
  have hthm := C7_move_keeps_entries (docsConfig false) 6 exampleFS "in/report.pdf".toList
      "Docs".toList [2, 3] rfl (by decide)
  obtain ⟨resolved, hres, _, _, h1, h2, h3⟩ := hthm.1 _ hcalc rfl
  have hval : resolved = "Docs/report_1.pdf".toList :=
    Option.some.inj (hres.symm.trans (by decide))
  subst hval
  refine ⟨hthm.2 (by decide) ?_, _, hcalc, rfl, h1, h2, h3 _ _ (by decide) (by decide)⟩
  intro k errno hk1 hk2 hs
  have hk : k = 1 ∨ k = 2 ∨ k = 3 ∨ k = 4 ∨ k = 5 ∨ k = 6 := by
    have : k ≤ 6 := hk2
    omega
  have he : osStat exampleFS
      (candidate (filepathJoin "Docs".toList (filepathBase "in/report.pdf".toList)) k) =
      .error .ENOENT := by
    rcases hk with h | h | h | h | h | h <;> subst h <;> decide
  rw [he] at hs
  cases hs
  rfl

end FileSorter
